import Mathlib

/-!
RayTracing: a shallow embedding of the vector algebra and the shading driver.

The C++ sources embedded here are `src/src/vec3.cpp`, `src/include/ray.h`,
`src/bin/metal_img.cpp` and `src/bin/random_scene.cpp`.

Conventions.

* `double` is idealised as an arbitrary linear ordered field `α` (exact
  arithmetic, no rounding); the theorems hold in particular for `ℝ`, and the
  definitions are computable over `ℚ`.
* The `<cmath>` functions `sqrt`, `cos`, `sin` are explicit parameters of the
  definitions that call them; theorems that need their defining properties
  instantiate them with `Real.sqrt`, `Real.cos`, `Real.sin`.  `fmin` is `min`,
  `fabs` is the absolute value.
* The random number generator is an explicit sequence `draws : ℕ → α` together
  with a position; every call of `random_double` returns the draw at the
  position and advances it by one.
* Unbounded `while (true)` loops carry a fuel argument and return `none` when
  the fuel is used up before the loop returns.
* Division by a zero length has no value in the program (`unit_vector` of a
  zero-length vector).  `unit_vector_checked` and `ray_color_checked` return
  `none` there; `unit_vector` and `ray_color` are their total companions, which
  agree with them wherever they return a value.
-/

namespace RayTracing

/-! ## vec3 (`vec3.h` is not among the sources; its operators follow the spec) -/

/-- Modelled from the spec: the class `vec3` of `vec3.h`, a value type with
three real components, read through `x()`, `y()`, `z()`. -/
@[ext]
structure vec3 (α : Type) where
  x : α
  y : α
  z : α
deriving DecidableEq

/-- Modelled from the spec: `point3` is an alias of `vec3` (a position). -/
abbrev point3 (α : Type) : Type := vec3 α

/-- Modelled from the spec: `color` is an alias of `vec3` (an RGB triple). -/
abbrev color (α : Type) : Type := vec3 α

section Algebra

variable {α : Type} [LinearOrderedField α]

/-- Modelled from the spec: `operator+` of `vec3.h`, component-wise. -/
instance : Add (vec3 α) where
  add u v := ⟨u.x + v.x, u.y + v.y, u.z + v.z⟩

/-- Modelled from the spec: `operator-` of `vec3.h`, component-wise. -/
instance : Sub (vec3 α) where
  sub u v := ⟨u.x - v.x, u.y - v.y, u.z - v.z⟩

/-- Modelled from the spec: unary `operator-` of `vec3.h`. -/
instance : Neg (vec3 α) where
  neg v := ⟨-v.x, -v.y, -v.z⟩

/-- Modelled from the spec: `operator*(vec3, vec3)` of `vec3.h`, the
component-wise product. -/
instance : Mul (vec3 α) where
  mul u v := ⟨u.x * v.x, u.y * v.y, u.z * v.z⟩

/-- Modelled from the spec: `operator*(double, vec3)` of `vec3.h`. -/
instance : HMul α (vec3 α) (vec3 α) where
  hMul t v := ⟨t * v.x, t * v.y, t * v.z⟩

/-- Modelled from the spec: `operator/(vec3, double)` of `vec3.h`,
multiplication by the reciprocal. -/
instance : HDiv (vec3 α) α (vec3 α) where
  hDiv v t := (1 / t) * v

/-- Modelled from the spec: `dot` of `vec3.h`. -/
def dot (u v : vec3 α) : α :=
  u.x * v.x + u.y * v.y + u.z * v.z

/-- Modelled from the spec: `vec3::length_squared` of `vec3.h`. -/
def vec3.length_squared (v : vec3 α) : α :=
  v.x * v.x + v.y * v.y + v.z * v.z

/-- Modelled from the spec: `vec3::length` of `vec3.h`, the Euclidean norm
`sqrt(length_squared())`. -/
def vec3.length (sqrt : α → α) (v : vec3 α) : α :=
  sqrt v.length_squared

/-- Modelled from the spec: `unit_vector` of `vec3.h`, `v / v.length()`.  For
a vector of length zero the program divides by zero and the quotient has no
value; the value of this total function is then without meaning, and
`unit_vector_checked` is the function to use. -/
def unit_vector (sqrt : α → α) (v : vec3 α) : vec3 α :=
  v / v.length sqrt

/-- Modelled from the spec: `unit_vector` of `vec3.h` with its failure, `none`
for a vector of length zero and `v / v.length()` otherwise. -/
def unit_vector_checked (sqrt : α → α) (v : vec3 α) : Option (vec3 α) :=
  if v.length sqrt = 0 then none else some (v / v.length sqrt)

/-- The method `vec3::near_zero` (vec3.cpp 34-38). -/
def vec3.near_zero (v : vec3 α) : Bool :=
  let s : α := 1e-8
  decide (|v.x| < s) && decide (|v.y| < s) && decide (|v.z| < s)

/-- The function `reflect` (vec3.cpp 40-42). -/
def reflect (v n : vec3 α) : vec3 α :=
  v - (2 * dot v n) * n

/-- The function `refract` (vec3.cpp 44-49). -/
def refract (sqrt : α → α) (uv n : vec3 α) (etai_over_etat : α) : vec3 α :=
  let cos_theta := min (dot (-uv) n) 1
  let r_out_perp : vec3 α := etai_over_etat * (uv + cos_theta * n)
  let r_out_parallel : vec3 α := (-(sqrt |1 - r_out_perp.length_squared|)) * n
  r_out_perp + r_out_parallel

/-- The formula the specification gives for `refract`: the same perpendicular
part, and a parallel part whose radicand is clamped below by zero. -/
def refract_spec (sqrt : α → α) (uv n : vec3 α) (etai_over_etat : α) : vec3 α :=
  let cos_theta := min (dot (-uv) n) 1
  let perp : vec3 α := etai_over_etat * (uv + cos_theta * n)
  let par : vec3 α := (-(sqrt (max 0 (1 - perp.length_squared)))) * n
  perp + par

/-! ## Random sampling (vec3.cpp) -/

/-- Modelled from the spec: `random_double(min, max)` of `utils.h`, a draw from
`[min, max)`.  The result is the next element of the draw sequence; that it
lies in the requested range is an assumption on the sequence, made where a
theorem needs it. -/
def random_double (draws : ℕ → α) (_min _max : α) (pos : ℕ) : α × ℕ :=
  (draws pos, pos + 1)

/-- Modelled from the spec: `vec3::random(min, max)` of `vec3.h`, each
component a draw from `[min, max)`. -/
def vec3.random (draws : ℕ → α) (min max : α) (pos : ℕ) : vec3 α × ℕ :=
  let a := random_double draws min max pos
  let b := random_double draws min max a.2
  let c := random_double draws min max b.2
  (⟨a.1, b.1, c.1⟩, c.2)

/-- The function `random_in_unit_sphere` (vec3.cpp 8-14).  One unit of fuel is
one iteration of the `while (true)` loop. -/
def random_in_unit_sphere (draws : ℕ → α) : ℕ → ℕ → Option (vec3 α × ℕ)
  | 0, _ => none
  | fuel + 1, pos =>
    let p := vec3.random draws (-1) 1 pos
    if p.1.length_squared ≥ 1 then random_in_unit_sphere draws fuel p.2
    else some p

/-- The function `random_unit_vector` (vec3.cpp 19-24). -/
def random_unit_vector (sqrt cos sin : α → α) (pi : α) (draws : ℕ → α) (pos : ℕ) :
    vec3 α × ℕ :=
  let a := random_double draws 0 (2 * pi) pos
  let z := random_double draws (-1) 1 a.2
  let r := sqrt (1 - z.1 * z.1)
  (⟨r * cos a.1, r * sin a.1, z.1⟩, z.2)

/-- The function `random_in_hemisphere` (vec3.cpp 26-32). -/
def random_in_hemisphere (draws : ℕ → α) (fuel : ℕ) (normal : vec3 α) (pos : ℕ) :
    Option (vec3 α × ℕ) :=
  match random_in_unit_sphere draws fuel pos with
  | none => none
  | some (in_unit_sphere, pos1) =>
    if dot in_unit_sphere normal > 0 then some (in_unit_sphere, pos1)
    else some (-in_unit_sphere, pos1)

/-- The function `random_in_unit_disk` (vec3.cpp 51-57).  One unit of fuel is
one iteration of the `while (true)` loop. -/
def random_in_unit_disk (draws : ℕ → α) : ℕ → ℕ → Option (vec3 α × ℕ)
  | 0, _ => none
  | fuel + 1, pos =>
    let a := random_double draws (-1) 1 pos
    let b := random_double draws (-1) 1 a.2
    let p : vec3 α := ⟨a.1, b.1, 0⟩
    if p.length_squared ≥ 1 then random_in_unit_disk draws fuel b.2
    else some (p, b.2)

/-- The candidate that the iteration of `random_in_unit_sphere` starting at
position `pos` of the draw sequence tests. -/
def sphere_candidate (draws : ℕ → α) (pos : ℕ) : vec3 α :=
  ⟨draws pos, draws (pos + 1), draws (pos + 2)⟩

/-- The candidate that the iteration of `random_in_unit_disk` starting at
position `pos` of the draw sequence tests. -/
def disk_candidate (draws : ℕ → α) (pos : ℕ) : vec3 α :=
  ⟨draws pos, draws (pos + 1), 0⟩

/-! ## Ray (ray.h) -/

/-- The class `Ray` (ray.h 9-25): an origin and a direction. -/
structure Ray (α : Type) where
  orig : point3 α
  dir : vec3 α
deriving DecidableEq

/-- The accessor `Ray::origin` (ray.h 15). -/
def Ray.origin (r : Ray α) : point3 α := r.orig

/-- The accessor `Ray::direction` (ray.h 16). -/
def Ray.direction (r : Ray α) : vec3 α := r.dir

/-- The method `Ray::at` (ray.h 18-20). -/
def Ray.at (r : Ray α) (t : α) : point3 α :=
  r.orig + t * r.dir

/-! ## The shading driver (metal_img.cpp 19-37, random_scene.cpp 21-39) -/

/-- Modelled from the spec: the struct `hit_record` of `hittable.h`.  The
shared pointer `mat_ptr` is a handle of type `μ`. -/
structure hit_record (α μ : Type) where
  p : point3 α
  normal : vec3 α
  mat_ptr : μ
  t : α
  front_face : Bool

/-- Modelled from the spec: the interface `Hittable` of `hittable.h`.  `hit`
returns the record it would write through its out-parameter, or `none` for
`false`; the upper end of the interval is a `double` that may be `infinity`. -/
structure Hittable (α μ : Type) where
  hit : Ray α → α → WithTop α → Option (hit_record α μ)

/-- Modelled from the spec: the virtual method `material::scatter` of
`material.h`, dispatched on the handle `mat_ptr`.  It returns the attenuation
and the scattered ray, or `none` for `false`, and the state `σ` of the random
number generator after its draws. -/
abbrev material (α μ σ : Type) : Type :=
  μ → Ray α → hit_record α μ → σ → Option (color α × Ray α) × σ

/-- Modelled from the spec: the constant `kBlackColor` of `color.h`, black. -/
def kBlackColor : color α := ⟨0, 0, 0⟩

/-- The function `ray_color` (metal_img.cpp 19-37; random_scene.cpp 21-39 is
the same text).  `scatter` is the dispatch of `rec.mat_ptr->scatter`, `s` the
state of the random number generator, returned after the call. -/
def ray_color {μ σ : Type} (sqrt : α → α) (scatter : material α μ σ)
    (r : Ray α) (world : Hittable α μ) (depth : ℤ) (s : σ) : color α × σ :=
  if depth ≤ 0 then
    (kBlackColor, s)
  else
    match world.hit r 0.001 ⊤ with
    | some rec =>
      match scatter rec.mat_ptr r rec s with
      | (some (attenuation, scattered), s1) =>
        let c := ray_color sqrt scatter scattered world (depth - 1) s1
        (attenuation * c.1, c.2)
      | (none, s1) => (⟨0, 0, 0⟩, s1)
    | none =>
      let unit_direction := unit_vector sqrt r.direction
      let t := 0.5 * (unit_direction.y + 1.0)
      (((1.0 - t) * (⟨1.0, 1.0, 1.0⟩ : color α)) + (t * (⟨0.5, 0.7, 1.0⟩ : color α)), s)
termination_by depth.toNat
decreasing_by omega

/-- Counters of the work one call of `ray_color` does: the calls of
`ray_color` itself (the outer one included), of `Hittable::hit` and of
`material::scatter`. -/
structure ray_color_count where
  calls : ℕ
  hit_tests : ℕ
  scatter_calls : ℕ
deriving DecidableEq

/-- The control flow of `ray_color` once more, counting instead of shading. -/
def ray_color_counts {μ σ : Type} (scatter : material α μ σ)
    (r : Ray α) (world : Hittable α μ) (depth : ℤ) (s : σ) : ray_color_count :=
  if depth ≤ 0 then
    ⟨1, 0, 0⟩
  else
    match world.hit r 0.001 ⊤ with
    | some rec =>
      match scatter rec.mat_ptr r rec s with
      | (some (_, scattered), s1) =>
        let n := ray_color_counts scatter scattered world (depth - 1) s1
        ⟨n.calls + 1, n.hit_tests + 1, n.scatter_calls + 1⟩
      | (none, _) => ⟨1, 1, 1⟩
    | none => ⟨1, 1, 0⟩
termination_by depth.toNat
decreasing_by omega

/-- The function `ray_color` with its counters in one pass: the colour and
generator state of `ray_color` together with the counters of
`ray_color_counts`. -/
def ray_color_traced {μ σ : Type} (sqrt : α → α) (scatter : material α μ σ)
    (r : Ray α) (world : Hittable α μ) (depth : ℤ) (s : σ) :
    (color α × σ) × ray_color_count :=
  if depth ≤ 0 then
    ((kBlackColor, s), ⟨1, 0, 0⟩)
  else
    match world.hit r 0.001 ⊤ with
    | some rec =>
      match scatter rec.mat_ptr r rec s with
      | (some (attenuation, scattered), s1) =>
        let c := ray_color_traced sqrt scatter scattered world (depth - 1) s1
        ((attenuation * c.1.1, c.1.2),
          ⟨c.2.calls + 1, c.2.hit_tests + 1, c.2.scatter_calls + 1⟩)
      | (none, s1) => ((⟨0, 0, 0⟩, s1), ⟨1, 1, 1⟩)
    | none =>
      let unit_direction := unit_vector sqrt r.direction
      let t := 0.5 * (unit_direction.y + 1.0)
      ((((1.0 - t) * (⟨1.0, 1.0, 1.0⟩ : color α)) + (t * (⟨0.5, 0.7, 1.0⟩ : color α)), s),
        ⟨1, 1, 0⟩)
termination_by depth.toNat
decreasing_by omega

/-- The function `ray_color` (metal_img.cpp 19-37; random_scene.cpp 21-39)
with the failure of `unit_vector`: `none` when the run normalises a direction
of length zero, and the colour and generator state otherwise.  A failure of
the nested call makes the product with the attenuation fail. -/
def ray_color_checked {μ σ : Type} (sqrt : α → α) (scatter : material α μ σ)
    (r : Ray α) (world : Hittable α μ) (depth : ℤ) (s : σ) : Option (color α × σ) :=
  if depth ≤ 0 then
    some (kBlackColor, s)
  else
    match world.hit r 0.001 ⊤ with
    | some rec =>
      match scatter rec.mat_ptr r rec s with
      | (some (attenuation, scattered), s1) =>
        match ray_color_checked sqrt scatter scattered world (depth - 1) s1 with
        | some c => some (attenuation * c.1, c.2)
        | none => none
      | (none, s1) => some (⟨0, 0, 0⟩, s1)
    | none =>
      match unit_vector_checked sqrt r.direction with
      | some unit_direction =>
        let t := 0.5 * (unit_direction.y + 1.0)
        some (((1.0 - t) * (⟨1.0, 1.0, 1.0⟩ : color α)) + (t * (⟨0.5, 0.7, 1.0⟩ : color α)), s)
      | none => none
termination_by depth.toNat
decreasing_by omega

/-! ## The pixel loops (metal_img.cpp 77-89, random_scene.cpp 132-144) -/

/-- The image-plane coordinates of one sample of pixel `(i, j)`
(metal_img.cpp 82-83, random_scene.cpp 137-138; the same text, each with the
constants `image_width`, `image_height` of its program): `u` with the first
draw of `random_double()`, `v` with the second. -/
def sample_uv (image_width image_height : ℤ) (draws : ℕ → α) (i j : ℤ) (pos : ℕ) :
    (α × α) × ℕ :=
  let a := random_double draws 0 1 pos
  let u := ((i : α) + a.1) / ((image_width - 1 : ℤ) : α)
  let b := random_double draws 0 1 a.2
  let v := ((j : α) + b.1) / ((image_height - 1 : ℤ) : α)
  ((u, v), b.2)

end Algebra

/-! ## The two-thread renderer (random_scene.cpp 87-146) -/

/-- The conversion `static_cast<int>` of a `double`: truncation toward zero. -/
def static_cast_int (q : ℚ) : ℤ :=
  if 0 ≤ q then ⌊q⌋ else ⌈q⌉

/-- The constant `Render::aspect_ratio` (random_scene.cpp 90). -/
def Render.aspect_ratio : ℚ := 3.0 / 2.0

/-- The constant `Render::image_width` (random_scene.cpp 91). -/
def Render.image_width : ℤ := 400

/-- The constant `Render::image_height` (random_scene.cpp 92). -/
def Render.image_height : ℤ :=
  static_cast_int (Render.image_width / Render.aspect_ratio)

/-- The pixel loop of `Render::RenderTask` for one scanline `j`
(random_scene.cpp 134-143): the coordinates `(x, y)` of its calls of
`JPGWriter::WriteColor`, in order. -/
def Render.RenderTask.scanline (image_height_max j : ℤ) : List (ℤ × ℤ) :=
  (List.range Render.image_width.toNat).map fun (i : ℕ) => ((i : ℤ), image_height_max - j)

/-- The scanline loop of `Render::RenderTask` from `j` downwards
(random_scene.cpp 132-144). -/
def Render.RenderTask.loop (image_height_max image_height_min : ℤ) (j : ℤ) : List (ℤ × ℤ) :=
  if j ≥ image_height_min then
    Render.RenderTask.scanline image_height_max j
      ++ Render.RenderTask.loop image_height_max image_height_min (j - 1)
  else
    []
termination_by (j - image_height_min + 1).toNat
decreasing_by omega

/-- The function `Render::RenderTask` (random_scene.cpp 131-145), reduced to
the coordinates `(x, y)` it passes to `JPGWriter::WriteColor`. -/
def Render.RenderTask (image_height_max image_height_min : ℤ) : List (ℤ × ℤ) :=
  Render.RenderTask.loop image_height_max image_height_min image_height_max

/-- The scanline loop of `Render::RenderTask` from `j` downwards
(random_scene.cpp 132), reduced to the scanline indices `j` it visits, in
order. -/
def Render.RenderTask.scanline_indices.loop (image_height_min : ℤ) (j : ℤ) : List ℤ :=
  if j ≥ image_height_min then
    j :: Render.RenderTask.scanline_indices.loop image_height_min (j - 1)
  else
    []
termination_by (j - image_height_min + 1).toNat
decreasing_by omega

/-- The scanlines `j` that `Render::RenderTask` renders (random_scene.cpp
131-145), in order. -/
def Render.RenderTask.scanline_indices (image_height_max image_height_min : ℤ) : List ℤ :=
  Render.RenderTask.scanline_indices.loop image_height_min image_height_max

/-- The function `Render::Start` (random_scene.cpp 110-119): the write
coordinates of the task of thread `t1` and of the task of thread `t2`. -/
def Render.Start : List (ℤ × ℤ) × List (ℤ × ℤ) :=
  let image_height_mid := Int.tdiv Render.image_height 2
  (Render.RenderTask (Render.image_height - 1) image_height_mid,
   Render.RenderTask (image_height_mid - 1) 0)

/-- The scanlines rendered by the task of thread `t1` and by the task of
thread `t2` of `Render::Start` (random_scene.cpp 110-119). -/
def Render.Start.scanline_indices : List ℤ × List ℤ :=
  let image_height_mid := Int.tdiv Render.image_height 2
  (Render.RenderTask.scanline_indices (Render.image_height - 1) image_height_mid,
   Render.RenderTask.scanline_indices (image_height_mid - 1) 0)

/-- The constant `aspect_ratio` of `main` (metal_img.cpp 43). -/
def metal_img.aspect_ratio : ℚ := 16.0 / 9.0

/-- The constant `image_width` of `main` (metal_img.cpp 44). -/
def metal_img.image_width : ℤ := 400

/-- The constant `image_height` of `main` (metal_img.cpp 45). -/
def metal_img.image_height : ℤ :=
  static_cast_int (metal_img.image_width / metal_img.aspect_ratio)

/-- The rows `y` a task writes: the second coordinates of its
`WriteColor` calls. -/
def Render.rows (writes : List (ℤ × ℤ)) : List ℤ :=
  writes.map Prod.snd

/-! ## A fixture: the ground sphere of metal_img.cpp seen from above -/

section Fixture

variable {α : Type} [LinearOrderedField α]

/-- A hit test for the ground sphere of metal_img.cpp 58 (centre
`(0, -100.5, -1)`, radius `100`) restricted to rays that point downwards: it
reports the top point `(0, -0.5, -1)` of the sphere with the normal
`(0, 1, 0)`; rays that do not point downwards miss. -/
def ground_world : Hittable α Unit where
  hit r _ _ :=
    if r.dir.y < 0 then some ⟨⟨0, -0.5, -1⟩, ⟨0, 1, 0⟩, (), 0.5, true⟩ else none

/-- A Lambertian material of albedo `(0.8, 0.8, 0.0)` (metal_img.cpp 53) whose
scatter always succeeds with the albedo as attenuation; the scattered ray
leaves the hit point along the normal. -/
def ground_scatter : material α Unit ℕ :=
  fun _ _ rec s => (some (⟨0.8, 0.8, 0.0⟩, ⟨rec.p, rec.normal⟩), s)

/-- A material that absorbs every ray: `scatter` declines and draws nothing. -/
def absorbing_scatter : material α Unit ℕ :=
  fun _ _ _ s => (none, s)

/-- A material of attenuation `(1, 1, 1)` whose scattered ray leaves the hit
point with the zero vector as direction. -/
def zero_direction_scatter : material α Unit ℕ :=
  fun _ _ rec s => (some (⟨1, 1, 1⟩, ⟨rec.p, ⟨0, 0, 0⟩⟩), s)

/-- A draw sequence for the samplers: three draws `1`, then `1/2` for ever. -/
def sample_draws : ℕ → ℚ :=
  fun n => if n < 3 then 1 else 1 / 2

end Fixture

/-! ## Component lemmas -/

section Lemmas

variable {α : Type} [LinearOrderedField α]

@[simp]
theorem vec3.add_x (u v : vec3 α) : (u + v).x = u.x + v.x := rfl
@[simp]
theorem vec3.add_y (u v : vec3 α) : (u + v).y = u.y + v.y := rfl
@[simp]
theorem vec3.add_z (u v : vec3 α) : (u + v).z = u.z + v.z := rfl
@[simp]
theorem vec3.sub_x (u v : vec3 α) : (u - v).x = u.x - v.x := rfl
@[simp]
theorem vec3.sub_y (u v : vec3 α) : (u - v).y = u.y - v.y := rfl
@[simp]
theorem vec3.sub_z (u v : vec3 α) : (u - v).z = u.z - v.z := rfl
@[simp]
theorem vec3.neg_x (v : vec3 α) : (-v).x = -v.x := rfl
@[simp]
theorem vec3.neg_y (v : vec3 α) : (-v).y = -v.y := rfl
@[simp]
theorem vec3.neg_z (v : vec3 α) : (-v).z = -v.z := rfl
@[simp]
theorem vec3.mul_x (u v : vec3 α) : (u * v).x = u.x * v.x := rfl
@[simp]
theorem vec3.mul_y (u v : vec3 α) : (u * v).y = u.y * v.y := rfl
@[simp]
theorem vec3.mul_z (u v : vec3 α) : (u * v).z = u.z * v.z := rfl
@[simp]
theorem vec3.smul_x (t : α) (v : vec3 α) : (t * v).x = t * v.x := rfl
@[simp]
theorem vec3.smul_y (t : α) (v : vec3 α) : (t * v).y = t * v.y := rfl
@[simp]
theorem vec3.smul_z (t : α) (v : vec3 α) : (t * v).z = t * v.z := rfl

@[simp]
theorem vec3.div_x (v : vec3 α) (t : α) : (v / t).x = v.x / t := by
  show 1 / t * v.x = v.x / t
  ring

@[simp]
theorem vec3.div_y (v : vec3 α) (t : α) : (v / t).y = v.y / t := by
  show 1 / t * v.y = v.y / t
  ring

@[simp]
theorem vec3.div_z (v : vec3 α) (t : α) : (v / t).z = v.z / t := by
  show 1 / t * v.z = v.z / t
  ring

/-- The reflection identity in any ordered field, for a normal of squared
length one. -/
theorem reflect_dot_of_length_squared (v n : vec3 α) (hn : n.length_squared = 1) :
    dot (reflect v n) n = -dot v n := by
  simp only [vec3.length_squared] at hn
  simp only [reflect, dot, vec3.sub_x, vec3.sub_y, vec3.sub_z, vec3.smul_x, vec3.smul_y,
    vec3.smul_z]
  linear_combination (-2 * (v.x * n.x + v.y * n.y + v.z * n.z)) * hn

end Lemmas

/-- Over the reals a vector has length one exactly when its squared length is
one. -/
theorem length_eq_one_iff (n : vec3 ℝ) :
    n.length Real.sqrt = 1 ↔ n.length_squared = 1 := by
  simp [vec3.length]

/-! ## C1: the radicand of `refract` -/

/-- C1 (counterexample): for the incident vector `(1, 0, 0)`, the normal
`(0, 1, 0)` and the ratio `2` the perpendicular part is `(2, 0, 0)`, of squared
length `4`; `refract` returns `(2, -√3, 0)`, while the formula with the
radicand clamped to zero gives `(2, 0, 0)`. -/
theorem refract_clamp_counterexample :
    refract Real.sqrt (⟨1, 0, 0⟩ : vec3 ℝ) ⟨0, 1, 0⟩ 2 = ⟨2, -Real.sqrt 3, 0⟩
      ∧ refract_spec Real.sqrt (⟨1, 0, 0⟩ : vec3 ℝ) ⟨0, 1, 0⟩ 2 = ⟨2, 0, 0⟩
      ∧ refract Real.sqrt (⟨1, 0, 0⟩ : vec3 ℝ) ⟨0, 1, 0⟩ 2
          ≠ refract_spec Real.sqrt ⟨1, 0, 0⟩ ⟨0, 1, 0⟩ 2 := by
  have h1 : refract Real.sqrt (⟨1, 0, 0⟩ : vec3 ℝ) ⟨0, 1, 0⟩ 2 = ⟨2, -Real.sqrt 3, 0⟩ := by
    ext
    · simp [refract, dot, vec3.length_squared]
    · simp [refract, dot, vec3.length_squared]
      norm_num
    · simp [refract, dot, vec3.length_squared]
  have h2 : refract_spec Real.sqrt (⟨1, 0, 0⟩ : vec3 ℝ) ⟨0, 1, 0⟩ 2 = ⟨2, 0, 0⟩ := by
    ext
    · simp [refract_spec, dot, vec3.length_squared]
    · simp [refract_spec, dot, vec3.length_squared]
      norm_num
    · simp [refract_spec, dot, vec3.length_squared]
  refine ⟨h1, h2, ?_⟩
  rw [h1, h2]
  intro h
  have hy := congrArg vec3.y h
  simp at hy

/-- C1 (amended): `refract(uv, n, etai_over_etat)` equals `perp + par` with
`cos_theta = min(dot(-uv, n), 1)`, `perp = etai_over_etat * (uv + cos_theta*n)`
and `par = -sqrt(|1 - |perp|^2|) * n`: the radicand is the absolute value of
`1 - |perp|^2`.  Whenever `|perp|^2 ≤ 1` this is the formula with the radicand
clamped to zero. -/
theorem refract_eq_abs_formula {α : Type} [LinearOrderedField α] (sqrt : α → α)
    (uv n : vec3 α) (etai_over_etat : α) :
    refract sqrt uv n etai_over_etat
        = etai_over_etat * (uv + min (dot (-uv) n) 1 * n)
          + (-(sqrt |1 - (etai_over_etat * (uv + min (dot (-uv) n) 1 * n)).length_squared|)) * n
      ∧ ((etai_over_etat * (uv + min (dot (-uv) n) 1 * n)).length_squared ≤ 1 →
          refract sqrt uv n etai_over_etat = refract_spec sqrt uv n etai_over_etat) := by
  refine ⟨rfl, fun h => ?_⟩
  have h0 : 0 ≤ 1 - (etai_over_etat * (uv + min (dot (-uv) n) 1 * n)).length_squared := by
    linarith
  simp only [refract, refract_spec]
  rw [abs_of_nonneg h0, max_eq_right h0]

/-- C1 (witness): at `uv = (1, 0, 0)`, `n = (0, 1, 0)` and ratio `1/2` the
perpendicular part has squared length `1/4`, and the two formulas agree. -/
theorem refract_eq_abs_formula_witness :
    (((1 / 2 : ℝ) * ((⟨1, 0, 0⟩ : vec3 ℝ)
        + min (dot (-(⟨1, 0, 0⟩ : vec3 ℝ)) ⟨0, 1, 0⟩) 1 * (⟨0, 1, 0⟩ : vec3 ℝ))).length_squared ≤ 1)
      ∧ refract Real.sqrt (⟨1, 0, 0⟩ : vec3 ℝ) ⟨0, 1, 0⟩ (1 / 2)
          = refract_spec Real.sqrt ⟨1, 0, 0⟩ ⟨0, 1, 0⟩ (1 / 2) :=
  have h : ((1 / 2 : ℝ) * ((⟨1, 0, 0⟩ : vec3 ℝ)
        + min (dot (-(⟨1, 0, 0⟩ : vec3 ℝ)) ⟨0, 1, 0⟩) 1 * (⟨0, 1, 0⟩ : vec3 ℝ))).length_squared
        ≤ 1 := by
    simp [dot, vec3.length_squared]
    norm_num
  ⟨h, (refract_eq_abs_formula Real.sqrt ⟨1, 0, 0⟩ ⟨0, 1, 0⟩ (1 / 2)).2 h⟩

/-! ## C4: reflection flips the normal component -/

/-- C4: for every vector `v` and every normal `n` of length one,
`dot(reflect(v, n), n) = -dot(v, n)`, where `reflect(v, n) = v - 2*dot(v, n)*n`. -/
theorem reflect_dot_normal (v n : vec3 ℝ) (hn : n.length Real.sqrt = 1) :
    reflect v n = v - (2 * dot v n) * n ∧ dot (reflect v n) n = -dot v n :=
  ⟨rfl, reflect_dot_of_length_squared v n ((length_eq_one_iff n).1 hn)⟩

/-- C4 (witness): `v = (1, 2, 3)` and the unit normal `(0, 1, 0)`. -/
theorem reflect_dot_normal_witness :
    (⟨0, 1, 0⟩ : vec3 ℝ).length Real.sqrt = 1
      ∧ dot (reflect (⟨1, 2, 3⟩ : vec3 ℝ) ⟨0, 1, 0⟩) ⟨0, 1, 0⟩ = -dot (⟨1, 2, 3⟩ : vec3 ℝ) ⟨0, 1, 0⟩ :=
  have h : (⟨0, 1, 0⟩ : vec3 ℝ).length Real.sqrt = 1 := by
    simp [vec3.length, vec3.length_squared]
  ⟨h, (reflect_dot_normal ⟨1, 2, 3⟩ ⟨0, 1, 0⟩ h).2⟩

/-! ## Unfolding lemmas for `ray_color` -/

section Shading

variable {α μ σ : Type} [LinearOrderedField α]

/-- The bounce limit: at `depth ≤ 0` the colour is black and the generator
state is returned as it came. -/
theorem ray_color_eq_of_nonpos (sqrt : α → α) (scatter : material α μ σ) (r : Ray α)
    (world : Hittable α μ) (depth : ℤ) (s : σ) (h : depth ≤ 0) :
    ray_color sqrt scatter r world depth s = (⟨0, 0, 0⟩, s) := by
  rw [ray_color, if_pos h]
  rfl

/-- The counters at `depth ≤ 0`: one call, no hit test, no `scatter`. -/
theorem ray_color_counts_eq_of_nonpos (scatter : material α μ σ) (r : Ray α)
    (world : Hittable α μ) (depth : ℤ) (s : σ) (h : depth ≤ 0) :
    ray_color_counts scatter r world depth s = ⟨1, 0, 0⟩ := by
  rw [ray_color_counts, if_pos h]

/-- The background branch. -/
theorem ray_color_eq_of_miss (sqrt : α → α) (scatter : material α μ σ) (r : Ray α)
    (world : Hittable α μ) (depth : ℤ) (s : σ) (hd : 1 ≤ depth)
    (hmiss : world.hit r 0.001 ⊤ = none) :
    ray_color sqrt scatter r world depth s =
      (((1 - 0.5 * ((unit_vector sqrt r.direction).y + 1)) * (⟨1, 1, 1⟩ : color α))
        + ((0.5 * ((unit_vector sqrt r.direction).y + 1)) * (⟨0.5, 0.7, 1.0⟩ : color α)), s) := by
  have h : ¬ depth ≤ 0 := by omega
  rw [ray_color, if_neg h]
  simp only [hmiss]
  norm_num

/-- The recursive branch: a hit whose material scatters. -/
theorem ray_color_eq_of_scatter (sqrt : α → α) (scatter : material α μ σ) (r : Ray α)
    (world : Hittable α μ) (depth : ℤ) (s : σ) (rec : hit_record α μ) (a : color α)
    (scattered : Ray α) (s1 : σ) (hd : 1 ≤ depth) (hhit : world.hit r 0.001 ⊤ = some rec)
    (hs : scatter rec.mat_ptr r rec s = (some (a, scattered), s1)) :
    ray_color sqrt scatter r world depth s =
      (a * (ray_color sqrt scatter scattered world (depth - 1) s1).1,
        (ray_color sqrt scatter scattered world (depth - 1) s1).2) := by
  have h : ¬ depth ≤ 0 := by omega
  rw [ray_color, if_neg h]
  simp [hhit, hs]

/-- The absorption branch: a hit whose material declines to scatter. -/
theorem ray_color_eq_of_absorb (sqrt : α → α) (scatter : material α μ σ) (r : Ray α)
    (world : Hittable α μ) (depth : ℤ) (s : σ) (rec : hit_record α μ) (s1 : σ)
    (hd : 1 ≤ depth) (hhit : world.hit r 0.001 ⊤ = some rec)
    (hs : scatter rec.mat_ptr r rec s = (none, s1)) :
    ray_color sqrt scatter r world depth s = (⟨0, 0, 0⟩, s1) := by
  have h : ¬ depth ≤ 0 := by omega
  rw [ray_color, if_neg h]
  simp [hhit, hs]

end Shading

/-- Over the reals the vertical component of a normalised direction lies in
`[-1, 1]` (also for the zero vector, where the quotient is `0`). -/
theorem unit_vector_y_abs_le_one (v : vec3 ℝ) : |(unit_vector Real.sqrt v).y| ≤ 1 := by
  simp only [unit_vector, vec3.div_y, vec3.length, vec3.length_squared]
  have hsq : v.y ^ 2 ≤ v.x * v.x + v.y * v.y + v.z * v.z := by nlinarith [mul_self_nonneg v.x, mul_self_nonneg v.z]
  have h1 : |v.y| ≤ Real.sqrt (v.x * v.x + v.y * v.y + v.z * v.z) := Real.abs_le_sqrt hsq
  rw [abs_div, abs_of_nonneg (Real.sqrt_nonneg _)]
  exact div_le_one_of_le₀ h1 (Real.sqrt_nonneg _)

/-- The hit test of the ground fixture on the ray from `(0, 0, -1)` straight
down. -/
theorem ground_world_hit_down :
    (ground_world : Hittable ℝ Unit).hit ⟨⟨0, 0, -1⟩, ⟨0, -1, 0⟩⟩ 0.001 ⊤
      = some ⟨⟨0, -0.5, -1⟩, ⟨0, 1, 0⟩, (), 0.5, true⟩ := by
  simp [ground_world]

/-- The hit test of the ground fixture on the ray from the top of the ground
sphere straight up. -/
theorem ground_world_hit_up :
    (ground_world : Hittable ℝ Unit).hit ⟨⟨0, -0.5, -1⟩, ⟨0, 1, 0⟩⟩ 0.001 ⊤ = none := by
  simp [ground_world]

/-! ## Lemmas on the render loops -/

/-- The image height: `static_cast<int>(400 / 1.5)` is `266`. -/
theorem Render.image_height_eq : Render.image_height = 266 := by
  simp [Render.image_height, static_cast_int, Render.image_width, Render.aspect_ratio]
  norm_num

/-- The writes of one scanline `j`: every column `0 ≤ x < image_width`, all in
the row `image_height_max - j`. -/
theorem Render.RenderTask.mem_scanline (hmax j x y : ℤ) :
    (x, y) ∈ Render.RenderTask.scanline hmax j ↔ (0 ≤ x ∧ x < Render.image_width) ∧ y = hmax - j := by
  have hw : (400 : ℤ).toNat = 400 := rfl
  simp only [Render.RenderTask.scanline, List.mem_map, List.mem_range, Prod.mk.injEq,
    Render.image_width, hw]
  constructor
  · rintro ⟨i, hi, rfl, rfl⟩
    refine ⟨⟨by omega, by omega⟩, rfl⟩
  · rintro ⟨⟨h0, h1⟩, rfl⟩
    exact ⟨x.toNat, by omega, by omega, rfl⟩

/-- The writes of the scanline loop from `j` down to `image_height_min`. -/
theorem Render.RenderTask.mem_loop (hmax hmin : ℤ) (n : ℕ) :
    ∀ (j x y : ℤ), (j - hmin + 1).toNat = n →
      ((x, y) ∈ Render.RenderTask.loop hmax hmin j ↔
        (0 ≤ x ∧ x < Render.image_width) ∧ ∃ k, hmin ≤ k ∧ k ≤ j ∧ y = hmax - k) := by
  induction n with
  | zero =>
    intro j x y hn
    have hj : ¬ j ≥ hmin := by omega
    rw [Render.RenderTask.loop, if_neg hj]
    simp only [List.not_mem_nil, false_iff]
    rintro ⟨_, k, h1, h2, _⟩
    omega
  | succ n ih =>
    intro j x y hn
    have hj : j ≥ hmin := by omega
    rw [Render.RenderTask.loop, if_pos hj, List.mem_append, Render.RenderTask.mem_scanline,
      ih (j - 1) x y (by omega)]
    constructor
    · rintro (⟨hx, rfl⟩ | ⟨hx, k, h1, h2, rfl⟩)
      · exact ⟨hx, j, hj, le_refl j, rfl⟩
      · exact ⟨hx, k, h1, by omega, rfl⟩
    · rintro ⟨hx, k, h1, h2, rfl⟩
      by_cases hk : k = j
      · subst hk
        exact Or.inl ⟨hx, rfl⟩
      · exact Or.inr ⟨hx, k, h1, by omega, rfl⟩

/-- The rows a render task writes: `image_height_max - k` for the scanlines `k`
of its band. -/
theorem Render.mem_rows_RenderTask (hmax hmin y : ℤ) :
    y ∈ Render.rows (Render.RenderTask hmax hmin) ↔ ∃ k, hmin ≤ k ∧ k ≤ hmax ∧ y = hmax - k := by
  simp only [Render.rows, Render.RenderTask, List.mem_map, Prod.exists, exists_eq_right]
  constructor
  · rintro ⟨x, hx⟩
    exact ((Render.RenderTask.mem_loop hmax hmin _ hmax x y rfl).1 hx).2
  · intro h
    exact ⟨0, (Render.RenderTask.mem_loop hmax hmin _ hmax 0 y rfl).2
      ⟨⟨le_refl 0, by decide⟩, h⟩⟩

/-! ## C2: a ray that hits the ground sphere -/

/-- C2 (counterexample): at depth `1` the ray from `(0, 0, -1)` straight down
hits the ground sphere, the Lambertian material scatters with attenuation
`(0.8, 0.8, 0.0)`, and `ray_color` returns black; its red component is not
greater than its blue component. -/
theorem ray_color_ground_depth_one_black :
    (ground_world : Hittable ℝ Unit).hit ⟨⟨0, 0, -1⟩, ⟨0, -1, 0⟩⟩ 0.001 ⊤
        = some ⟨⟨0, -0.5, -1⟩, ⟨0, 1, 0⟩, (), 0.5, true⟩
      ∧ (ground_scatter : material ℝ Unit ℕ) () ⟨⟨0, 0, -1⟩, ⟨0, -1, 0⟩⟩
          ⟨⟨0, -0.5, -1⟩, ⟨0, 1, 0⟩, (), 0.5, true⟩ 7
          = (some (⟨0.8, 0.8, 0.0⟩, ⟨⟨0, -0.5, -1⟩, ⟨0, 1, 0⟩⟩), 7)
      ∧ (ray_color Real.sqrt ground_scatter (⟨⟨0, 0, -1⟩, ⟨0, -1, 0⟩⟩ : Ray ℝ)
          ground_world 1 7).1 = ⟨0, 0, 0⟩
      ∧ ¬ ((ray_color Real.sqrt ground_scatter (⟨⟨0, 0, -1⟩, ⟨0, -1, 0⟩⟩ : Ray ℝ)
            ground_world 1 7).1.x
          > (ray_color Real.sqrt ground_scatter (⟨⟨0, 0, -1⟩, ⟨0, -1, 0⟩⟩ : Ray ℝ)
            ground_world 1 7).1.z) := by
  have hc : (ray_color Real.sqrt ground_scatter (⟨⟨0, 0, -1⟩, ⟨0, -1, 0⟩⟩ : Ray ℝ)
      ground_world 1 7).1 = ⟨0, 0, 0⟩ := by
    rw [ray_color_eq_of_scatter Real.sqrt ground_scatter _ ground_world 1 7 _ _ _ 7
      (le_refl 1) ground_world_hit_down rfl]
    rw [ray_color_eq_of_nonpos Real.sqrt ground_scatter _ ground_world (1 - 1) 7 (by decide)]
    ext <;> simp
  refine ⟨ground_world_hit_down, rfl, hc, ?_⟩
  rw [hc]
  simp

/-- C2 (amended): for every `depth ≥ 1` and every ray that hits the ground
sphere, whose Lambertian `scatter` succeeds with attenuation `(0.8, 0.8, 0.0)`,
`ray_color` returns `(0.8*R, 0.8*G, 0)` where `(R, G, B)` is `ray_color` of the
scattered ray at `depth-1`.  This colour is non-black with red and green greater
than blue exactly when `R > 0` and `G > 0`; that is the case when `depth ≥ 2`
and the scattered ray misses all geometry, and it is not the case at
`depth = 1`, where the result is black. -/
theorem ray_color_ground {μ σ : Type} (scatter : material ℝ μ σ) (r : Ray ℝ)
    (world : Hittable ℝ μ) (depth : ℤ) (s : σ) (rec : hit_record ℝ μ) (scattered : Ray ℝ)
    (s1 : σ) (hd : 1 ≤ depth) (hhit : world.hit r 0.001 ⊤ = some rec)
    (hs : scatter rec.mat_ptr r rec s = (some (⟨0.8, 0.8, 0.0⟩, scattered), s1)) :
    (ray_color Real.sqrt scatter r world depth s).1
        = ⟨0.8 * (ray_color Real.sqrt scatter scattered world (depth - 1) s1).1.x,
            0.8 * (ray_color Real.sqrt scatter scattered world (depth - 1) s1).1.y, 0⟩
      ∧ (((ray_color Real.sqrt scatter r world depth s).1 ≠ ⟨0, 0, 0⟩
            ∧ (ray_color Real.sqrt scatter r world depth s).1.x
                > (ray_color Real.sqrt scatter r world depth s).1.z
            ∧ (ray_color Real.sqrt scatter r world depth s).1.y
                > (ray_color Real.sqrt scatter r world depth s).1.z)
          ↔ (0 < (ray_color Real.sqrt scatter scattered world (depth - 1) s1).1.x
            ∧ 0 < (ray_color Real.sqrt scatter scattered world (depth - 1) s1).1.y))
      ∧ (2 ≤ depth → world.hit scattered 0.001 ⊤ = none →
          (ray_color Real.sqrt scatter r world depth s).1 ≠ ⟨0, 0, 0⟩
            ∧ (ray_color Real.sqrt scatter r world depth s).1.x
                > (ray_color Real.sqrt scatter r world depth s).1.z
            ∧ (ray_color Real.sqrt scatter r world depth s).1.y
                > (ray_color Real.sqrt scatter r world depth s).1.z)
      ∧ (depth = 1 → (ray_color Real.sqrt scatter r world depth s).1 = ⟨0, 0, 0⟩) := by
  have hout : (ray_color Real.sqrt scatter r world depth s).1
      = ⟨0.8 * (ray_color Real.sqrt scatter scattered world (depth - 1) s1).1.x,
          0.8 * (ray_color Real.sqrt scatter scattered world (depth - 1) s1).1.y, 0⟩ := by
    rw [ray_color_eq_of_scatter Real.sqrt scatter r world depth s rec _ scattered s1 hd hhit hs]
    ext
    · simp
    · simp
    · simp only [vec3.mul_z]
      norm_num
  have hiff : ∀ R G : ℝ,
      (((⟨0.8 * R, 0.8 * G, 0⟩ : color ℝ) ≠ ⟨0, 0, 0⟩ ∧ 0.8 * R > 0 ∧ 0.8 * G > 0)
        ↔ (0 < R ∧ 0 < G)) := by
    intro R G
    constructor
    · rintro ⟨_, hR, hG⟩
      constructor <;> nlinarith
    · rintro ⟨hR, hG⟩
      refine ⟨?_, by nlinarith, by nlinarith⟩
      intro h
      have hx := congrArg vec3.x h
      simp only at hx
      nlinarith
  refine ⟨hout, ?_, ?_, ?_⟩
  · rw [hout]
    exact hiff _ _
  · intro h2 hmiss
    rw [hout]
    refine (hiff _ _).2 ?_
    rw [ray_color_eq_of_miss Real.sqrt scatter scattered world (depth - 1) s1 (by omega) hmiss]
    have hy := abs_le.1 (unit_vector_y_abs_le_one scattered.direction)
    simp only [vec3.add_x, vec3.add_y, vec3.smul_x, vec3.smul_y]
    constructor <;> nlinarith [hy.1, hy.2]
  · intro h1
    rw [hout, ray_color_eq_of_nonpos Real.sqrt scatter scattered world (depth - 1) s1 (by omega)]
    ext <;> simp

/-- C2 (witness): at depth `2` the ray from `(0, 0, -1)` straight down hits the
ground sphere, the scattered ray leaves straight up and misses, and the colour
is non-black with red and green greater than blue. -/
theorem ray_color_ground_witness :
    (1 : ℤ) ≤ 2
      ∧ (ground_world : Hittable ℝ Unit).hit ⟨⟨0, 0, -1⟩, ⟨0, -1, 0⟩⟩ 0.001 ⊤
          = some ⟨⟨0, -0.5, -1⟩, ⟨0, 1, 0⟩, (), 0.5, true⟩
      ∧ (ground_world : Hittable ℝ Unit).hit ⟨⟨0, -0.5, -1⟩, ⟨0, 1, 0⟩⟩ 0.001 ⊤ = none
      ∧ ((ray_color Real.sqrt ground_scatter (⟨⟨0, 0, -1⟩, ⟨0, -1, 0⟩⟩ : Ray ℝ)
            ground_world 2 7).1 ≠ ⟨0, 0, 0⟩
          ∧ (ray_color Real.sqrt ground_scatter (⟨⟨0, 0, -1⟩, ⟨0, -1, 0⟩⟩ : Ray ℝ)
              ground_world 2 7).1.x
            > (ray_color Real.sqrt ground_scatter (⟨⟨0, 0, -1⟩, ⟨0, -1, 0⟩⟩ : Ray ℝ)
              ground_world 2 7).1.z
          ∧ (ray_color Real.sqrt ground_scatter (⟨⟨0, 0, -1⟩, ⟨0, -1, 0⟩⟩ : Ray ℝ)
              ground_world 2 7).1.y
            > (ray_color Real.sqrt ground_scatter (⟨⟨0, 0, -1⟩, ⟨0, -1, 0⟩⟩ : Ray ℝ)
              ground_world 2 7).1.z) :=
  ⟨by decide, ground_world_hit_down, ground_world_hit_up,
    (ray_color_ground ground_scatter ⟨⟨0, 0, -1⟩, ⟨0, -1, 0⟩⟩ ground_world 2 7
      ⟨⟨0, -0.5, -1⟩, ⟨0, 1, 0⟩, (), 0.5, true⟩ ⟨⟨0, -0.5, -1⟩, ⟨0, 1, 0⟩⟩ 7
      (by decide) ground_world_hit_down rfl).2.2.1 (le_refl 2) ground_world_hit_up⟩

/-! ## C3: the rows written by the two render tasks -/

/-- C3 (evaluation of the code): in `Render::Start` the task of thread `t1`
(scanlines `265 .. 133`) writes exactly the rows `y = 0 .. 132`, and the task
of thread `t2` (scanlines `132 .. 0`) writes exactly the same rows
`y = 0 .. 132`; the two row sets are not disjoint. -/
theorem Render_Start_same_rows :
    (∀ y, y ∈ Render.rows Render.Start.1 ↔ 0 ≤ y ∧ y ≤ 132)
      ∧ (∀ y, y ∈ Render.rows Render.Start.2 ↔ 0 ≤ y ∧ y ≤ 132)
      ∧ ¬ List.Disjoint (Render.rows Render.Start.1) (Render.rows Render.Start.2) := by
  have hmid : Int.tdiv 266 2 = 133 := by decide
  have h1 : ∀ y, y ∈ Render.rows Render.Start.1 ↔ 0 ≤ y ∧ y ≤ 132 := by
    intro y
    simp only [Render.Start, Render.image_height_eq, Render.mem_rows_RenderTask, hmid]
    constructor
    · rintro ⟨k, h1, h2, rfl⟩
      omega
    · rintro ⟨h1, h2⟩
      exact ⟨265 - y, by omega, by omega, by omega⟩
  have h2 : ∀ y, y ∈ Render.rows Render.Start.2 ↔ 0 ≤ y ∧ y ≤ 132 := by
    intro y
    simp only [Render.Start, Render.image_height_eq, Render.mem_rows_RenderTask, hmid]
    constructor
    · rintro ⟨k, h1, h2, rfl⟩
      omega
    · rintro ⟨h1, h2⟩
      exact ⟨132 - y, by omega, by omega, by omega⟩
  refine ⟨h1, h2, ?_⟩
  intro hdis
  exact hdis ((h1 0).2 ⟨le_refl 0, by decide⟩) ((h2 0).2 ⟨le_refl 0, by decide⟩)

/-! ## C5, C6, C7: one step of `ray_color` -/

/-- C5: for every ray, every scene, every material dispatch and every
`depth ≤ 0`, `ray_color` returns black `(0, 0, 0)`, leaves the random number
generator untouched, and performs no hit test and no `scatter` call. -/
theorem ray_color_depth_nonpos {α μ σ : Type} [LinearOrderedField α] (sqrt : α → α)
    (scatter : material α μ σ) (r : Ray α) (world : Hittable α μ) (depth : ℤ) (s : σ)
    (h : depth ≤ 0) :
    ray_color sqrt scatter r world depth s = (⟨0, 0, 0⟩, s)
      ∧ (ray_color_counts scatter r world depth s).hit_tests = 0
      ∧ (ray_color_counts scatter r world depth s).scatter_calls = 0 := by
  refine ⟨ray_color_eq_of_nonpos sqrt scatter r world depth s h, ?_, ?_⟩
  · rw [ray_color_counts_eq_of_nonpos scatter r world depth s h]
  · rw [ray_color_counts_eq_of_nonpos scatter r world depth s h]

/-- C5 (witness): depth `0` in the ground fixture, for a ray that would hit. -/
theorem ray_color_depth_nonpos_witness :
    (0 : ℤ) ≤ 0
      ∧ ray_color Real.sqrt ground_scatter (⟨⟨0, 0, -1⟩, ⟨0, -1, 0⟩⟩ : Ray ℝ) ground_world 0 7
          = (⟨0, 0, 0⟩, 7)
      ∧ ray_color Real.sqrt ground_scatter (⟨⟨0, 0, -1⟩, ⟨0, -1, 0⟩⟩ : Ray ℝ) ground_world (-3) 7
          = (⟨0, 0, 0⟩, 7) :=
  ⟨le_refl 0,
    (ray_color_depth_nonpos Real.sqrt ground_scatter ⟨⟨0, 0, -1⟩, ⟨0, -1, 0⟩⟩
      ground_world 0 7 (le_refl 0)).1,
    (ray_color_depth_nonpos Real.sqrt ground_scatter ⟨⟨0, 0, -1⟩, ⟨0, -1, 0⟩⟩
      ground_world (-3) 7 (by decide)).1⟩

/-- C6: for every `depth ≥ 1` and every ray on which the hit test of the scene
over `(0.001, +infinity)` reports no hit, `ray_color` returns
`(1-t)*(1,1,1) + t*(0.5,0.7,1.0)` with
`t = 0.5*(unit_vector(ray.direction).y + 1)`. -/
theorem ray_color_miss {α μ σ : Type} [LinearOrderedField α] (sqrt : α → α)
    (scatter : material α μ σ) (r : Ray α) (world : Hittable α μ) (depth : ℤ) (s : σ)
    (hd : 1 ≤ depth) (hmiss : world.hit r 0.001 ⊤ = none) :
    ray_color sqrt scatter r world depth s =
      (((1 - 0.5 * ((unit_vector sqrt r.direction).y + 1)) * (⟨1, 1, 1⟩ : color α))
        + ((0.5 * ((unit_vector sqrt r.direction).y + 1)) * (⟨0.5, 0.7, 1.0⟩ : color α)), s) :=
  ray_color_eq_of_miss sqrt scatter r world depth s hd hmiss

/-- C6 (witness): in the ground fixture the ray from `(0, 0, -1)` straight up
misses, and at depth `1` its colour is the sky blue `(0.5, 0.7, 1.0)`. -/
theorem ray_color_miss_witness :
    (1 : ℤ) ≤ 1
      ∧ (ground_world : Hittable ℝ Unit).hit ⟨⟨0, 0, -1⟩, ⟨0, 1, 0⟩⟩ 0.001 ⊤ = none
      ∧ ray_color Real.sqrt ground_scatter (⟨⟨0, 0, -1⟩, ⟨0, 1, 0⟩⟩ : Ray ℝ) ground_world 1 7
          = (⟨0.5, 0.7, 1.0⟩, 7) := by
  have hm : (ground_world : Hittable ℝ Unit).hit ⟨⟨0, 0, -1⟩, ⟨0, 1, 0⟩⟩ 0.001 ⊤ = none := by
    simp [ground_world]
  refine ⟨le_refl 1, hm, ?_⟩
  rw [ray_color_miss Real.sqrt ground_scatter ⟨⟨0, 0, -1⟩, ⟨0, 1, 0⟩⟩ ground_world 1 7
    (le_refl 1) hm]
  refine Prod.ext ?_ rfl
  ext <;> simp [unit_vector, vec3.length, vec3.length_squared, Ray.direction] <;> norm_num

/-- C7: for every `depth ≥ 1` and every ray that hits the scene with record
`rec`: if `scatter` of the hit material succeeds with attenuation `a` and
scattered ray `scattered`, `ray_color` returns the component-wise product of `a`
and `ray_color(scattered, world, depth-1)`; if `scatter` declines, `ray_color`
returns black `(0, 0, 0)`. -/
theorem ray_color_hit {α μ σ : Type} [LinearOrderedField α] (sqrt : α → α)
    (scatter : material α μ σ) (r : Ray α) (world : Hittable α μ) (depth : ℤ) (s : σ)
    (rec : hit_record α μ) (hd : 1 ≤ depth) (hhit : world.hit r 0.001 ⊤ = some rec) :
    (∀ (a : color α) (scattered : Ray α) (s1 : σ),
        scatter rec.mat_ptr r rec s = (some (a, scattered), s1) →
        ray_color sqrt scatter r world depth s =
          (a * (ray_color sqrt scatter scattered world (depth - 1) s1).1,
            (ray_color sqrt scatter scattered world (depth - 1) s1).2))
      ∧ (∀ s1 : σ, scatter rec.mat_ptr r rec s = (none, s1) →
          ray_color sqrt scatter r world depth s = (⟨0, 0, 0⟩, s1)) :=
  ⟨fun a scattered s1 hs =>
      ray_color_eq_of_scatter sqrt scatter r world depth s rec a scattered s1 hd hhit hs,
    fun s1 hs => ray_color_eq_of_absorb sqrt scatter r world depth s rec s1 hd hhit hs⟩

/-- C7 (witness): in the ground fixture the ray from `(0, 0, -1)` straight down
hits; with the Lambertian ground material the colour is the albedo times the
colour of the scattered ray, with the absorbing material it is black. -/
theorem ray_color_hit_witness :
    (1 : ℤ) ≤ 1
      ∧ (ground_world : Hittable ℝ Unit).hit ⟨⟨0, 0, -1⟩, ⟨0, -1, 0⟩⟩ 0.001 ⊤
          = some ⟨⟨0, -0.5, -1⟩, ⟨0, 1, 0⟩, (), 0.5, true⟩
      ∧ ray_color Real.sqrt ground_scatter (⟨⟨0, 0, -1⟩, ⟨0, -1, 0⟩⟩ : Ray ℝ) ground_world 1 7
          = ((⟨0.8, 0.8, 0.0⟩ : color ℝ) * (ray_color Real.sqrt ground_scatter
              ⟨⟨0, -0.5, -1⟩, ⟨0, 1, 0⟩⟩ ground_world (1 - 1) 7).1,
            (ray_color Real.sqrt ground_scatter
              ⟨⟨0, -0.5, -1⟩, ⟨0, 1, 0⟩⟩ ground_world (1 - 1) 7).2)
      ∧ ray_color Real.sqrt absorbing_scatter ⟨⟨0, 0, -1⟩, ⟨0, -1, 0⟩⟩ ground_world 1 7
          = (⟨0, 0, 0⟩, 7) := by
  have hh : (ground_world : Hittable ℝ Unit).hit ⟨⟨0, 0, -1⟩, ⟨0, -1, 0⟩⟩ 0.001 ⊤
      = some ⟨⟨0, -0.5, -1⟩, ⟨0, 1, 0⟩, (), 0.5, true⟩ := by
    simp [ground_world]
  exact ⟨le_refl 1, hh,
    (ray_color_hit Real.sqrt ground_scatter ⟨⟨0, 0, -1⟩, ⟨0, -1, 0⟩⟩ ground_world 1 7
      _ (le_refl 1) hh).1 _ _ _ rfl,
    (ray_color_hit Real.sqrt absorbing_scatter ⟨⟨0, 0, -1⟩, ⟨0, -1, 0⟩⟩ ground_world 1 7
      _ (le_refl 1) hh).2 _ rfl⟩


/-! ## Lemmas on the rejection samplers -/

/-- The three draws of `vec3::random` form the candidate at the position. -/
theorem vec3.random_eq {α : Type} (draws : ℕ → α) (lo hi : α) (pos : ℕ) :
    vec3.random draws lo hi pos = (sphere_candidate draws pos, pos + 3) := rfl

section Sampling

variable {α : Type} [LinearOrderedField α]

/-- The loop of `random_in_unit_sphere` returns `(p, pos1)` within `fuel`
iterations exactly when `p` is the first candidate of squared length below one
and `pos1` is the position after it. -/
theorem random_in_unit_sphere_eq_some_iff (draws : ℕ → α) (fuel : ℕ) :
    ∀ (pos : ℕ) (p : vec3 α) (pos1 : ℕ),
      random_in_unit_sphere draws fuel pos = some (p, pos1) ↔
        ∃ k, k < fuel
          ∧ (∀ i, i < k → 1 ≤ (sphere_candidate draws (pos + 3 * i)).length_squared)
          ∧ (sphere_candidate draws (pos + 3 * k)).length_squared < 1
          ∧ p = sphere_candidate draws (pos + 3 * k) ∧ pos1 = pos + 3 * k + 3 := by
  induction fuel with
  | zero =>
    intro pos p pos1
    simp [random_in_unit_sphere]
  | succ fuel ih =>
    intro pos p pos1
    rw [random_in_unit_sphere]
    simp only [vec3.random_eq]
    by_cases hc : (sphere_candidate draws pos).length_squared ≥ 1
    · rw [if_pos hc, ih]
      constructor
      · rintro ⟨k, hk, hall, hacc, hp, hpos⟩
        refine ⟨k + 1, by omega, ?_, ?_, ?_, ?_⟩
        · intro i hi
          cases i with
          | zero => simpa using hc
          | succ i =>
            have e : pos + 3 * (i + 1) = pos + 3 + 3 * i := by omega
            rw [e]
            exact hall i (by omega)
        · have e : pos + 3 * (k + 1) = pos + 3 + 3 * k := by omega
          rw [e]
          exact hacc
        · have e : pos + 3 * (k + 1) = pos + 3 + 3 * k := by omega
          rw [e]
          exact hp
        · omega
      · rintro ⟨k, hk, hall, hacc, hp, hpos⟩
        cases k with
        | zero =>
          exfalso
          have : (sphere_candidate draws pos).length_squared < 1 := by simpa using hacc
          exact absurd hc (not_le.2 this)
        | succ k =>
          have e : pos + 3 * (k + 1) = pos + 3 + 3 * k := by omega
          refine ⟨k, by omega, ?_, ?_, ?_, ?_⟩
          · intro i hi
            have := hall (i + 1) (by omega)
            have e2 : pos + 3 * (i + 1) = pos + 3 + 3 * i := by omega
            rw [e2] at this
            exact this
          · rw [← e]
            exact hacc
          · rw [← e]
            exact hp
          · omega
    · rw [if_neg hc]
      have hlt : (sphere_candidate draws pos).length_squared < 1 := not_le.1 hc
      constructor
      · intro h
        simp only [Option.some.injEq, Prod.mk.injEq] at h
        exact ⟨0, by omega, fun i hi => absurd hi (Nat.not_lt_zero i), by simpa using hlt,
          by simpa using h.1.symm, by omega⟩
      · rintro ⟨k, hk, hall, hacc, hp, hpos⟩
        cases k with
        | zero =>
          simp only [Nat.mul_zero, Nat.add_zero] at hp hpos
          simp [hp, hpos]
        | succ k =>
          exfalso
          have := hall 0 (by omega)
          simp only [Nat.mul_zero, Nat.add_zero] at this
          exact absurd this (not_le.2 hlt)

/-- The loop of `random_in_unit_disk` returns `(p, pos1)` within `fuel`
iterations exactly when `p` is the first candidate of squared length below one
and `pos1` is the position after it. -/
theorem random_in_unit_disk_eq_some_iff (draws : ℕ → α) (fuel : ℕ) :
    ∀ (pos : ℕ) (p : vec3 α) (pos1 : ℕ),
      random_in_unit_disk draws fuel pos = some (p, pos1) ↔
        ∃ k, k < fuel
          ∧ (∀ i, i < k → 1 ≤ (disk_candidate draws (pos + 2 * i)).length_squared)
          ∧ (disk_candidate draws (pos + 2 * k)).length_squared < 1
          ∧ p = disk_candidate draws (pos + 2 * k) ∧ pos1 = pos + 2 * k + 2 := by
  induction fuel with
  | zero =>
    intro pos p pos1
    simp [random_in_unit_disk]
  | succ fuel ih =>
    intro pos p pos1
    rw [random_in_unit_disk]
    simp only [random_double]
    change (if (disk_candidate draws pos).length_squared ≥ 1 then
        random_in_unit_disk draws fuel (pos + 1 + 1)
      else some (disk_candidate draws pos, pos + 1 + 1)) = some (p, pos1) ↔ _
    have e2 : pos + 1 + 1 = pos + 2 := by omega
    rw [e2]
    by_cases hc : (disk_candidate draws pos).length_squared ≥ 1
    · rw [if_pos hc, ih]
      constructor
      · rintro ⟨k, hk, hall, hacc, hp, hpos⟩
        refine ⟨k + 1, by omega, ?_, ?_, ?_, ?_⟩
        · intro i hi
          cases i with
          | zero => simpa using hc
          | succ i =>
            have e : pos + 2 * (i + 1) = pos + 2 + 2 * i := by omega
            rw [e]
            exact hall i (by omega)
        · have e : pos + 2 * (k + 1) = pos + 2 + 2 * k := by omega
          rw [e]
          exact hacc
        · have e : pos + 2 * (k + 1) = pos + 2 + 2 * k := by omega
          rw [e]
          exact hp
        · omega
      · rintro ⟨k, hk, hall, hacc, hp, hpos⟩
        cases k with
        | zero =>
          exfalso
          have : (disk_candidate draws pos).length_squared < 1 := by simpa using hacc
          exact absurd hc (not_le.2 this)
        | succ k =>
          have e : pos + 2 * (k + 1) = pos + 2 + 2 * k := by omega
          refine ⟨k, by omega, ?_, ?_, ?_, ?_⟩
          · intro i hi
            have := hall (i + 1) (by omega)
            have e2 : pos + 2 * (i + 1) = pos + 2 + 2 * i := by omega
            rw [e2] at this
            exact this
          · rw [← e]
            exact hacc
          · rw [← e]
            exact hp
          · omega
    · rw [if_neg hc]
      have hlt : (disk_candidate draws pos).length_squared < 1 := not_le.1 hc
      constructor
      · intro h
        simp only [Option.some.injEq, Prod.mk.injEq] at h
        exact ⟨0, by omega, fun i hi => absurd hi (Nat.not_lt_zero i), by simpa using hlt,
          by simpa using h.1.symm, by omega⟩
      · rintro ⟨k, hk, hall, hacc, hp, hpos⟩
        cases k with
        | zero =>
          simp only [Nat.mul_zero, Nat.add_zero] at hp hpos
          simp [hp, hpos]
        | succ k =>
          exfalso
          have := hall 0 (by omega)
          simp only [Nat.mul_zero, Nat.add_zero] at this
          exact absurd this (not_le.2 hlt)

end Sampling

/-- The sampler on the sample draws: the candidate `(1, 1, 1)` is rejected, the
candidate `(1/2, 1/2, 1/2)` is returned. -/
theorem random_in_unit_sphere_sample_draws :
    random_in_unit_sphere sample_draws 5 0 = some (⟨1 / 2, 1 / 2, 1 / 2⟩, 6) := by
  simp [random_in_unit_sphere, vec3.random, random_double, vec3.length_squared, sample_draws]
  norm_num

/-- The disk sampler on the sample draws: the candidate `(1, 1, 0)` is
rejected, the candidate `(1, 1/2, 0)` as well, the candidate `(1/2, 1/2, 0)` is
returned. -/
theorem random_in_unit_disk_sample_draws :
    random_in_unit_disk sample_draws 5 0 = some (⟨1 / 2, 1 / 2, 0⟩, 6) := by
  simp [random_in_unit_disk, random_double, vec3.length_squared, sample_draws]
  norm_num

/-! ## C8: the rejection samplers return the first accepted candidate -/

/-- C8: for every draw sequence, `random_in_unit_sphere` returns `(p, pos1)`
within `fuel` iterations exactly when `p` is the first candidate (three
consecutive draws) of squared length `< 1`, and then `p` has squared length
`< 1`; `random_in_unit_disk` returns `(p, pos1)` exactly when `p` is the first
candidate (two consecutive draws, `z = 0`) of squared length `< 1`, and then `p`
has squared length `< 1` and `z` component `0`. -/
theorem rejection_samplers_first_accepted {α : Type} [LinearOrderedField α]
    (draws : ℕ → α) (fuel pos : ℕ) (p : vec3 α) (pos1 : ℕ) :
    (random_in_unit_sphere draws fuel pos = some (p, pos1) ↔
        ∃ k, k < fuel
          ∧ (∀ i, i < k → 1 ≤ (sphere_candidate draws (pos + 3 * i)).length_squared)
          ∧ (sphere_candidate draws (pos + 3 * k)).length_squared < 1
          ∧ p = sphere_candidate draws (pos + 3 * k) ∧ pos1 = pos + 3 * k + 3)
      ∧ (random_in_unit_sphere draws fuel pos = some (p, pos1) → p.length_squared < 1)
      ∧ (random_in_unit_disk draws fuel pos = some (p, pos1) ↔
        ∃ k, k < fuel
          ∧ (∀ i, i < k → 1 ≤ (disk_candidate draws (pos + 2 * i)).length_squared)
          ∧ (disk_candidate draws (pos + 2 * k)).length_squared < 1
          ∧ p = disk_candidate draws (pos + 2 * k) ∧ pos1 = pos + 2 * k + 2)
      ∧ (random_in_unit_disk draws fuel pos = some (p, pos1) →
          p.length_squared < 1 ∧ p.z = 0) := by
  refine ⟨random_in_unit_sphere_eq_some_iff draws fuel pos p pos1, ?_,
    random_in_unit_disk_eq_some_iff draws fuel pos p pos1, ?_⟩
  · intro h
    obtain ⟨k, _, _, hacc, hp, _⟩ := (random_in_unit_sphere_eq_some_iff draws fuel pos p pos1).1 h
    rw [hp]
    exact hacc
  · intro h
    obtain ⟨k, _, _, hacc, hp, _⟩ := (random_in_unit_disk_eq_some_iff draws fuel pos p pos1).1 h
    rw [hp]
    exact ⟨hacc, rfl⟩

/-- C8 (witness): on the sample draws both loops return, the sphere sampler
`(1/2, 1/2, 1/2)` and the disk sampler `(1/2, 1/2, 0)`, of squared length
below one. -/
theorem rejection_samplers_first_accepted_witness :
    random_in_unit_sphere sample_draws 5 0 = some (⟨1 / 2, 1 / 2, 1 / 2⟩, 6)
      ∧ (⟨1 / 2, 1 / 2, 1 / 2⟩ : vec3 ℚ).length_squared < 1
      ∧ random_in_unit_disk sample_draws 5 0 = some (⟨1 / 2, 1 / 2, 0⟩, 6)
      ∧ ((⟨1 / 2, 1 / 2, 0⟩ : vec3 ℚ).length_squared < 1 ∧ (⟨1 / 2, 1 / 2, 0⟩ : vec3 ℚ).z = 0) :=
  ⟨random_in_unit_sphere_sample_draws,
    (rejection_samplers_first_accepted sample_draws 5 0 ⟨1 / 2, 1 / 2, 1 / 2⟩ 6).2.1
      random_in_unit_sphere_sample_draws,
    random_in_unit_disk_sample_draws,
    (rejection_samplers_first_accepted sample_draws 5 0 ⟨1 / 2, 1 / 2, 0⟩ 6).2.2.2
      random_in_unit_disk_sample_draws⟩

/-! ## C9: `random_unit_vector` lies on the unit sphere -/

/-- C9: for every azimuth draw `a` and every draw `z` in `[-1, 1]`,
`random_unit_vector` returns `(r*cos a, r*sin a, z)` with `r = sqrt(1 - z*z)`,
and this vector has length `1`. -/
theorem random_unit_vector_on_sphere (draws : ℕ → ℝ) (pos : ℕ)
    (hz : -1 ≤ draws (pos + 1) ∧ draws (pos + 1) ≤ 1) :
    random_unit_vector Real.sqrt Real.cos Real.sin Real.pi draws pos
        = (⟨Real.sqrt (1 - draws (pos + 1) * draws (pos + 1)) * Real.cos (draws pos),
            Real.sqrt (1 - draws (pos + 1) * draws (pos + 1)) * Real.sin (draws pos),
            draws (pos + 1)⟩, pos + 2)
      ∧ (random_unit_vector Real.sqrt Real.cos Real.sin Real.pi draws pos).1.length Real.sqrt
          = 1 := by
  refine ⟨rfl, ?_⟩
  rw [length_eq_one_iff]
  have h0 : 0 ≤ 1 - draws (pos + 1) * draws (pos + 1) := by nlinarith [hz.1, hz.2]
  have hs := Real.mul_self_sqrt h0
  have hc := Real.cos_sq_add_sin_sq (draws pos)
  simp only [random_unit_vector, random_double, vec3.length_squared]
  generalize Real.sqrt (1 - draws (pos + 1) * draws (pos + 1)) = r at hs
  generalize Real.cos (draws pos) = c at hc
  generalize Real.sin (draws pos) = d at hc
  have : r * c * (r * c) + r * d * (r * d) = (r * r) * (c ^ 2 + d ^ 2) := by ring
  rw [this, hs, hc]
  ring

/-- C9 (witness): the draws `a = 0`, `z = 0` give the unit vector `(1, 0, 0)`. -/
theorem random_unit_vector_on_sphere_witness :
    (-1 ≤ (fun _ : ℕ => (0 : ℝ)) (0 + 1) ∧ (fun _ : ℕ => (0 : ℝ)) (0 + 1) ≤ 1)
      ∧ (random_unit_vector Real.sqrt Real.cos Real.sin Real.pi
          (fun _ : ℕ => (0 : ℝ)) 0).1.length Real.sqrt = 1 :=
  have h : -1 ≤ (fun _ : ℕ => (0 : ℝ)) (0 + 1) ∧ (fun _ : ℕ => (0 : ℝ)) (0 + 1) ≤ 1 := by
    norm_num
  ⟨h, (random_unit_vector_on_sphere (fun _ : ℕ => (0 : ℝ)) 0 h).2⟩

/-! ## C10: `random_in_hemisphere` flips the sample into the hemisphere of the normal -/

/-- C10: for every normal and every sample `p` produced by
`random_in_unit_sphere`, `random_in_hemisphere(normal)` returns a vector `r`
that is `p` or `-p`, satisfies `dot(r, normal) ≥ 0` and has the squared length
of `p`. -/
theorem random_in_hemisphere_spec {α : Type} [LinearOrderedField α] (draws : ℕ → α)
    (fuel : ℕ) (normal : vec3 α) (pos : ℕ) (p : vec3 α) (pos1 : ℕ)
    (hp : random_in_unit_sphere draws fuel pos = some (p, pos1)) :
    ∃ r, random_in_hemisphere draws fuel normal pos = some (r, pos1)
      ∧ (r = p ∨ r = -p) ∧ dot r normal ≥ 0 ∧ r.length_squared = p.length_squared := by
  by_cases hd : dot p normal > 0
  · refine ⟨p, ?_, Or.inl rfl, le_of_lt hd, rfl⟩
    simp [random_in_hemisphere, hp, hd]
  · refine ⟨-p, ?_, Or.inr rfl, ?_, ?_⟩
    · simp [random_in_hemisphere, hp, hd]
    · have h := not_lt.1 hd
      simp only [dot, vec3.neg_x, vec3.neg_y, vec3.neg_z] at h ⊢
      linarith
    · simp only [vec3.length_squared, vec3.neg_x, vec3.neg_y, vec3.neg_z]
      ring

/-- C10 (witness): on the sample draws the sample is `(1/2, 1/2, 1/2)`; for the
normal `(0, -1, 0)` the result lies in the hemisphere of the normal. -/
theorem random_in_hemisphere_spec_witness :
    random_in_unit_sphere sample_draws 5 0 = some (⟨1 / 2, 1 / 2, 1 / 2⟩, 6)
      ∧ ∃ r, random_in_hemisphere sample_draws 5 ⟨0, -1, 0⟩ 0 = some (r, 6)
        ∧ (r = ⟨1 / 2, 1 / 2, 1 / 2⟩ ∨ r = -(⟨1 / 2, 1 / 2, 1 / 2⟩ : vec3 ℚ))
        ∧ dot r ⟨0, -1, 0⟩ ≥ 0
        ∧ r.length_squared = (⟨1 / 2, 1 / 2, 1 / 2⟩ : vec3 ℚ).length_squared :=
  ⟨random_in_unit_sphere_sample_draws,
    random_in_hemisphere_spec sample_draws 5 ⟨0, -1, 0⟩ 0 ⟨1 / 2, 1 / 2, 1 / 2⟩ 6
      random_in_unit_sphere_sample_draws⟩

/-! ## C11: the ray accessors -/

/-- C11: for every ray constructed from origin `o` and direction `d` and every
`t`, `origin() = o`, `direction() = d` and `at(t) = o + t*d` component-wise; in
particular `at(0) = o`.  The direction is stored as given, for every `d`. -/
theorem Ray_accessors {α : Type} [LinearOrderedField α] (o : point3 α) (d : vec3 α) (t : α) :
    (Ray.mk o d).origin = o
      ∧ (Ray.mk o d).direction = d
      ∧ Ray.at (Ray.mk o d) t = ⟨o.x + t * d.x, o.y + t * d.y, o.z + t * d.z⟩
      ∧ Ray.at (Ray.mk o d) 0 = o := by
  refine ⟨rfl, rfl, rfl, ?_⟩
  ext <;> simp [Ray.at]

/-! ## C12: `near_zero` -/

/-- C12: for every vector `v`, `v.near_zero()` is true if and only if each of
its three components has absolute value strictly less than `1e-8`. -/
theorem near_zero_iff {α : Type} [LinearOrderedField α] (v : vec3 α) :
    v.near_zero = true ↔ |v.x| < 1e-8 ∧ |v.y| < 1e-8 ∧ |v.z| < 1e-8 := by
  simp only [vec3.near_zero, Bool.and_eq_true, decide_eq_true_eq]
  exact and_assoc

/-! ## C13: the image-plane coordinates of the pixel loops -/

/-- C13 (counterexample): in `Render::RenderTask` (image width `400`, height
`266`) the sample of the last column `i = 399` with the jitter draw `1/2` gets
`u = 799/798`, which is greater than `1`. -/
theorem sample_uv_last_column_exceeds_one :
    (0 : ℤ) ≤ 399 ∧ (399 : ℤ) < Render.image_width
      ∧ (0 : ℤ) ≤ 0 ∧ (0 : ℤ) < Render.image_height
      ∧ (0 ≤ (1 / 2 : ℚ) ∧ (1 / 2 : ℚ) < 1)
      ∧ (sample_uv Render.image_width Render.image_height (fun _ => (1 / 2 : ℚ)) 399 0 0).1.1
          = 799 / 798
      ∧ ¬ ((sample_uv Render.image_width Render.image_height
              (fun _ => (1 / 2 : ℚ)) 399 0 0).1.1 ≤ 1) := by
  have hu : (sample_uv Render.image_width Render.image_height
      (fun _ => (1 / 2 : ℚ)) 399 0 0).1.1 = 799 / 798 := by
    simp [sample_uv, random_double, Render.image_width]
    norm_num
  refine ⟨by decide, by decide, le_refl 0, ?_, by norm_num, hu, ?_⟩
  · rw [Render.image_height_eq]
    decide
  · rw [hu]
    norm_num

/-- C13 (amended): for every pixel `(i, j)` with `0 ≤ i < image_width` and
`0 ≤ j < image_height` (both at least `2`) and jitter draws in `[0, 1)`, the
coordinates `u = (i + jitter)/(image_width - 1)` and
`v = (j + jitter)/(image_height - 1)` satisfy
`0 ≤ u < image_width/(image_width - 1)` and
`0 ≤ v < image_height/(image_height - 1)`; `u < 1` for every column
`i < image_width - 1` and `u ≥ 1` in the last column, `v < 1` for every row
`j < image_height - 1` and `v ≥ 1` in the last row. -/
theorem sample_uv_range {α : Type} [LinearOrderedField α] (image_width image_height : ℤ)
    (draws : ℕ → α) (i j : ℤ) (pos : ℕ)
    (hw : 2 ≤ image_width) (hh : 2 ≤ image_height)
    (hi : 0 ≤ i ∧ i < image_width) (hj : 0 ≤ j ∧ j < image_height)
    (ha : 0 ≤ draws pos ∧ draws pos < 1) (hb : 0 ≤ draws (pos + 1) ∧ draws (pos + 1) < 1) :
    (sample_uv image_width image_height draws i j pos).1
        = (((i : α) + draws pos) / ((image_width - 1 : ℤ) : α),
            ((j : α) + draws (pos + 1)) / ((image_height - 1 : ℤ) : α))
      ∧ (0 ≤ (sample_uv image_width image_height draws i j pos).1.1
          ∧ (sample_uv image_width image_height draws i j pos).1.1
              < (image_width : α) / ((image_width - 1 : ℤ) : α))
      ∧ (0 ≤ (sample_uv image_width image_height draws i j pos).1.2
          ∧ (sample_uv image_width image_height draws i j pos).1.2
              < (image_height : α) / ((image_height - 1 : ℤ) : α))
      ∧ (i < image_width - 1 → (sample_uv image_width image_height draws i j pos).1.1 < 1)
      ∧ (i = image_width - 1 → 1 ≤ (sample_uv image_width image_height draws i j pos).1.1)
      ∧ (j < image_height - 1 → (sample_uv image_width image_height draws i j pos).1.2 < 1)
      ∧ (j = image_height - 1 → 1 ≤ (sample_uv image_width image_height draws i j pos).1.2) := by
  have hwpos : (0 : α) < ((image_width - 1 : ℤ) : α) := by
    exact_mod_cast (by omega : (0 : ℤ) < image_width - 1)
  have hhpos : (0 : α) < ((image_height - 1 : ℤ) : α) := by
    exact_mod_cast (by omega : (0 : ℤ) < image_height - 1)
  have hi0 : (0 : α) ≤ (i : α) := by exact_mod_cast hi.1
  have hj0 : (0 : α) ≤ (j : α) := by exact_mod_cast hj.1
  have hi1 : (i : α) + 1 ≤ (image_width : α) := by
    exact_mod_cast (by omega : i + 1 ≤ image_width)
  have hj1 : (j : α) + 1 ≤ (image_height : α) := by
    exact_mod_cast (by omega : j + 1 ≤ image_height)
  have hu : (sample_uv image_width image_height draws i j pos).1.1
      = ((i : α) + draws pos) / ((image_width - 1 : ℤ) : α) := rfl
  have hv : (sample_uv image_width image_height draws i j pos).1.2
      = ((j : α) + draws (pos + 1)) / ((image_height - 1 : ℤ) : α) := rfl
  rw [hu, hv]
  refine ⟨rfl, ⟨?_, ?_⟩, ⟨?_, ?_⟩, ?_, ?_, ?_, ?_⟩
  · exact div_nonneg (by linarith [ha.1]) hwpos.le
  · exact div_lt_div_of_pos_right (by linarith [ha.2]) hwpos
  · exact div_nonneg (by linarith [hb.1]) hhpos.le
  · exact div_lt_div_of_pos_right (by linarith [hb.2]) hhpos
  · intro h
    rw [div_lt_one hwpos]
    have h2 : (i : α) + 1 ≤ ((image_width - 1 : ℤ) : α) := by
      exact_mod_cast (by omega : i + 1 ≤ image_width - 1)
    linarith [ha.2]
  · intro h
    rw [one_le_div hwpos, h]
    linarith [ha.1]
  · intro h
    rw [div_lt_one hhpos]
    have h2 : (j : α) + 1 ≤ ((image_height - 1 : ℤ) : α) := by
      exact_mod_cast (by omega : j + 1 ≤ image_height - 1)
    linarith [hb.2]
  · intro h
    rw [one_le_div hhpos, h]
    linarith [hb.1]

/-- C13 (witness): pixel `(10, 20)` of `Render::RenderTask` with both jitter
draws `1/2`: `u` and `v` lie in `[0, 1)`. -/
theorem sample_uv_range_witness :
    ((2 : ℤ) ≤ 400 ∧ (2 : ℤ) ≤ 266)
      ∧ (0 ≤ (sample_uv 400 266 (fun _ => (1 / 2 : ℚ)) 10 20 0).1.1
          ∧ (sample_uv 400 266 (fun _ => (1 / 2 : ℚ)) 10 20 0).1.1 < 1)
      ∧ (0 ≤ (sample_uv 400 266 (fun _ => (1 / 2 : ℚ)) 10 20 0).1.2
          ∧ (sample_uv 400 266 (fun _ => (1 / 2 : ℚ)) 10 20 0).1.2 < 1) :=
  have h := sample_uv_range 400 266 (fun _ => (1 / 2 : ℚ)) 10 20 0 (by decide) (by decide)
    ⟨by decide, by decide⟩ ⟨by decide, by decide⟩ (by norm_num) (by norm_num)
  ⟨⟨by decide, by decide⟩, ⟨h.2.1.1, h.2.2.2.1 (by decide)⟩,
    ⟨h.2.2.1.1, h.2.2.2.2.2.1 (by decide)⟩⟩

/-! ## Lemmas on `reflect` and `refract` for unit vectors -/

section UnitVectors

variable {α : Type} [LinearOrderedField α]

/-- The Cauchy-Schwarz inequality for `dot`. -/
theorem dot_mul_self_le (u v : vec3 α) :
    dot u v * dot u v ≤ u.length_squared * v.length_squared := by
  simp only [dot, vec3.length_squared]
  nlinarith [mul_self_nonneg (u.x * v.y - u.y * v.x), mul_self_nonneg (u.x * v.z - u.z * v.x),
    mul_self_nonneg (u.y * v.z - u.z * v.y)]

/-- For unit vectors the clamp of `cos_theta` in `refract` is not active:
`min(dot(-uv, n), 1) = -dot(uv, n)`. -/
theorem min_dot_neg_of_unit (uv n : vec3 α) (huv : uv.length_squared = 1)
    (hn : n.length_squared = 1) : min (dot (-uv) n) 1 = -dot uv n := by
  have hneg : dot (-uv) n = -dot uv n := by
    simp only [dot, vec3.neg_x, vec3.neg_y, vec3.neg_z]
    ring
  have hcs := dot_mul_self_le uv n
  rw [huv, hn] at hcs
  have hle : -dot uv n ≤ 1 := by nlinarith [mul_self_nonneg (dot uv n + 1)]
  rw [hneg, min_eq_left hle]

/-- The perpendicular part of `refract` is orthogonal to a unit normal. -/
theorem dot_refract_perp (uv n : vec3 α) (eta : α) (hn : n.length_squared = 1) :
    dot (eta * (uv + (-dot uv n) * n)) n = 0 := by
  simp only [vec3.length_squared] at hn
  simp only [dot, vec3.smul_x, vec3.smul_y, vec3.smul_z, vec3.add_x, vec3.add_y, vec3.add_z]
  linear_combination (-eta * (uv.x * n.x + uv.y * n.y + uv.z * n.z)) * hn

/-- The normal component of `P - S*n` when `P` is orthogonal to the unit
normal `n`. -/
theorem dot_add_neg_smul (P n : vec3 α) (S : α) (hP : dot P n = 0)
    (hn : n.length_squared = 1) : dot (P + (-S) * n) n = -S := by
  simp only [vec3.length_squared] at hn
  simp only [dot, vec3.smul_x, vec3.smul_y, vec3.smul_z, vec3.add_x, vec3.add_y,
    vec3.add_z] at hP ⊢
  linear_combination hP + (-S) * hn

/-- The squared length of `P - S*n` when `P` is orthogonal to the unit normal
`n`. -/
theorem length_squared_add_neg_smul (P n : vec3 α) (S : α) (hP : dot P n = 0)
    (hn : n.length_squared = 1) :
    (P + (-S) * n).length_squared = P.length_squared + S * S := by
  simp only [dot] at hP
  simp only [vec3.length_squared, vec3.smul_x, vec3.smul_y, vec3.smul_z, vec3.add_x,
    vec3.add_y, vec3.add_z] at hn ⊢
  linear_combination (-2 * S) * hP + (S * S) * hn

/-- Reflection about a unit normal preserves the squared length. -/
theorem reflect_length_squared (v n : vec3 α) (hn : n.length_squared = 1) :
    (reflect v n).length_squared = v.length_squared := by
  simp only [reflect, dot, vec3.length_squared, vec3.sub_x, vec3.sub_y, vec3.sub_z,
    vec3.smul_x, vec3.smul_y, vec3.smul_z] at hn ⊢
  linear_combination (4 * (v.x * n.x + v.y * n.y + v.z * n.z) ^ 2) * hn

/-- Reflection about a unit normal is an involution. -/
theorem reflect_reflect (v n : vec3 α) (hn : n.length_squared = 1) :
    reflect (reflect v n) n = v := by
  simp only [vec3.length_squared] at hn
  ext
  · simp only [reflect, dot, vec3.sub_x, vec3.sub_y, vec3.sub_z, vec3.smul_x, vec3.smul_y,
      vec3.smul_z]
    linear_combination (4 * (v.x * n.x + v.y * n.y + v.z * n.z) * n.x) * hn
  · simp only [reflect, dot, vec3.sub_x, vec3.sub_y, vec3.sub_z, vec3.smul_x, vec3.smul_y,
      vec3.smul_z]
    linear_combination (4 * (v.x * n.x + v.y * n.y + v.z * n.z) * n.y) * hn
  · simp only [reflect, dot, vec3.sub_x, vec3.sub_y, vec3.sub_z, vec3.smul_x, vec3.smul_y,
      vec3.smul_z]
    linear_combination (4 * (v.x * n.x + v.y * n.y + v.z * n.z) * n.z) * hn

/-- For unit `uv` and `n`, `refract` is the perpendicular part
`eta*(uv - dot(uv, n)*n)` minus `sqrt(|1 - |perp|^2|)` times the normal. -/
theorem refract_of_unit (sqrt : α → α) (uv n : vec3 α) (eta : α)
    (huv : uv.length_squared = 1) (hn : n.length_squared = 1) :
    refract sqrt uv n eta
      = eta * (uv + (-dot uv n) * n)
        + (-(sqrt |1 - (eta * (uv + (-dot uv n) * n)).length_squared|)) * n := by
  simp only [refract, min_dot_neg_of_unit uv n huv hn]

end UnitVectors

/-- The unit vector `(3/5, -4/5, 0)` used as an incident direction. -/
theorem length_three_fifths : (⟨3 / 5, -4 / 5, 0⟩ : vec3 ℝ).length Real.sqrt = 1 := by
  rw [length_eq_one_iff]
  simp only [vec3.length_squared]
  norm_num

/-- The unit normal `(0, 1, 0)`. -/
theorem length_unit_y : (⟨0, 1, 0⟩ : vec3 ℝ).length Real.sqrt = 1 := by
  simp [vec3.length, vec3.length_squared]

/-! ## C14: Snell's law in `refract` -/

/-- C14: for unit-length `uv` and `n`, the component of `refract(uv, n, eta)`
tangential to the surface equals `eta` times the tangential component of `uv`:
`refract(uv,n,eta) - dot(refract(uv,n,eta), n)*n = eta * (uv - dot(uv, n)*n)`;
the normal component is `sqrt(|1 - |perp|^2|)` times `-n`, so it points along
`-n` (`dot(refract(uv,n,eta), n) ≤ 0`). -/
theorem refract_snell (uv n : vec3 ℝ) (eta : ℝ) (huv : uv.length Real.sqrt = 1)
    (hn : n.length Real.sqrt = 1) :
    refract Real.sqrt uv n eta - dot (refract Real.sqrt uv n eta) n * n
        = eta * (uv - dot uv n * n)
      ∧ dot (refract Real.sqrt uv n eta) n ≤ 0
      ∧ dot (refract Real.sqrt uv n eta) n * n
          = Real.sqrt |1 - (eta * (uv - dot uv n * n)).length_squared| * (-n) := by
  have huv2 := (length_eq_one_iff uv).1 huv
  have hn2 := (length_eq_one_iff n).1 hn
  have hP : eta * (uv + (-dot uv n) * n) = eta * (uv - dot uv n * n) := by
    ext <;> simp only [vec3.add_x, vec3.add_y, vec3.add_z, vec3.sub_x, vec3.sub_y, vec3.sub_z,
      vec3.neg_x, vec3.neg_y, vec3.neg_z, vec3.smul_x, vec3.smul_y, vec3.smul_z] <;> ring
  have hr := refract_of_unit Real.sqrt uv n eta huv2 hn2
  have hdot : dot (refract Real.sqrt uv n eta) n
      = -Real.sqrt |1 - (eta * (uv + (-dot uv n) * n)).length_squared| := by
    rw [hr]
    exact dot_add_neg_smul _ n _ (dot_refract_perp uv n eta hn2) hn2
  refine ⟨?_, ?_, ?_⟩
  · rw [hdot, hr]
    ext <;> simp only [vec3.add_x, vec3.add_y, vec3.add_z, vec3.sub_x, vec3.sub_y, vec3.sub_z,
      vec3.neg_x, vec3.neg_y, vec3.neg_z, vec3.smul_x, vec3.smul_y, vec3.smul_z] <;> ring
  · rw [hdot]
    exact neg_nonpos.2 (Real.sqrt_nonneg _)
  · rw [hdot, hP]
    ext <;> simp

/-- C14 (witness): the incident direction `(3/5, -4/5, 0)`, the normal
`(0, 1, 0)` and the ratio `1/2`. -/
theorem refract_snell_witness :
    (⟨3 / 5, -4 / 5, 0⟩ : vec3 ℝ).length Real.sqrt = 1
      ∧ (⟨0, 1, 0⟩ : vec3 ℝ).length Real.sqrt = 1
      ∧ refract Real.sqrt ⟨3 / 5, -4 / 5, 0⟩ ⟨0, 1, 0⟩ (1 / 2)
          - dot (refract Real.sqrt ⟨3 / 5, -4 / 5, 0⟩ ⟨0, 1, 0⟩ (1 / 2)) ⟨0, 1, 0⟩
            * (⟨0, 1, 0⟩ : vec3 ℝ)
          = (1 / 2 : ℝ) * ((⟨3 / 5, -4 / 5, 0⟩ : vec3 ℝ)
              - dot (⟨3 / 5, -4 / 5, 0⟩ : vec3 ℝ) ⟨0, 1, 0⟩ * (⟨0, 1, 0⟩ : vec3 ℝ)) :=
  ⟨length_three_fifths, length_unit_y,
    (refract_snell ⟨3 / 5, -4 / 5, 0⟩ ⟨0, 1, 0⟩ (1 / 2) length_three_fifths length_unit_y).1⟩

/-! ## C17: the length of the refracted vector -/

/-- C17: for unit-length `uv` and `n` and every ratio `eta`, with
`perp = eta*(uv + cos_theta*n)`: if `|perp|^2 ≤ 1` then `refract(uv, n, eta)`
has length `1`; if `|perp|^2 > 1` its squared length is `2*|perp|^2 - 1`. -/
theorem refract_length (uv n : vec3 ℝ) (eta : ℝ) (huv : uv.length Real.sqrt = 1)
    (hn : n.length Real.sqrt = 1) :
    ((eta * (uv + min (dot (-uv) n) 1 * n)).length_squared ≤ 1 →
        (refract Real.sqrt uv n eta).length Real.sqrt = 1)
      ∧ (1 < (eta * (uv + min (dot (-uv) n) 1 * n)).length_squared →
        (refract Real.sqrt uv n eta).length_squared
          = 2 * (eta * (uv + min (dot (-uv) n) 1 * n)).length_squared - 1) := by
  have huv2 := (length_eq_one_iff uv).1 huv
  have hn2 := (length_eq_one_iff n).1 hn
  have hr := refract_of_unit Real.sqrt uv n eta huv2 hn2
  have hsq : (refract Real.sqrt uv n eta).length_squared
      = (eta * (uv + (-dot uv n) * n)).length_squared
        + |1 - (eta * (uv + (-dot uv n) * n)).length_squared| := by
    rw [hr, length_squared_add_neg_smul _ n _ (dot_refract_perp uv n eta hn2) hn2,
      Real.mul_self_sqrt (abs_nonneg _)]
  rw [min_dot_neg_of_unit uv n huv2 hn2]
  constructor
  · intro h
    rw [length_eq_one_iff, hsq, abs_of_nonneg (by linarith)]
    ring
  · intro h
    rw [hsq, abs_of_neg (by linarith)]
    ring

/-- C17 (witness): for `uv = (3/5, -4/5, 0)`, `n = (0, 1, 0)` the perpendicular
part at ratio `1/2` has squared length `9/100` and the refracted vector has
length `1`; at ratio `2` it has squared length `36/25` and the refracted
vector has squared length `47/25`. -/
theorem refract_length_witness :
    (⟨3 / 5, -4 / 5, 0⟩ : vec3 ℝ).length Real.sqrt = 1
      ∧ (⟨0, 1, 0⟩ : vec3 ℝ).length Real.sqrt = 1
      ∧ (refract Real.sqrt ⟨3 / 5, -4 / 5, 0⟩ ⟨0, 1, 0⟩ (1 / 2)).length Real.sqrt = 1
      ∧ (refract Real.sqrt ⟨3 / 5, -4 / 5, 0⟩ ⟨0, 1, 0⟩ 2).length_squared = 47 / 25 := by
  have hmin : min (dot (-(⟨3 / 5, -4 / 5, 0⟩ : vec3 ℝ)) ⟨0, 1, 0⟩) 1 = 4 / 5 := by
    simp [dot]
    norm_num
  have h1 : ((1 / 2 : ℝ) * ((⟨3 / 5, -4 / 5, 0⟩ : vec3 ℝ)
      + min (dot (-(⟨3 / 5, -4 / 5, 0⟩ : vec3 ℝ)) ⟨0, 1, 0⟩) 1
        * (⟨0, 1, 0⟩ : vec3 ℝ))).length_squared ≤ 1 := by
    rw [hmin]
    simp [vec3.length_squared]
    norm_num
  have h2 : ((2 : ℝ) * ((⟨3 / 5, -4 / 5, 0⟩ : vec3 ℝ)
      + min (dot (-(⟨3 / 5, -4 / 5, 0⟩ : vec3 ℝ)) ⟨0, 1, 0⟩) 1
        * (⟨0, 1, 0⟩ : vec3 ℝ))).length_squared = 36 / 25 := by
    rw [hmin]
    simp [vec3.length_squared]
    norm_num
  refine ⟨length_three_fifths, length_unit_y,
    (refract_length ⟨3 / 5, -4 / 5, 0⟩ ⟨0, 1, 0⟩ (1 / 2) length_three_fifths length_unit_y).1 h1,
    ?_⟩
  rw [(refract_length ⟨3 / 5, -4 / 5, 0⟩ ⟨0, 1, 0⟩ 2 length_three_fifths length_unit_y).2
    (by rw [h2]; norm_num), h2]
  norm_num

/-! ## C18: reflection is a length-preserving involution -/

/-- C18: for every vector `v` and every unit-length normal `n`,
`|reflect(v, n)|^2 = |v|^2` and `reflect(reflect(v, n), n) = v`. -/
theorem reflect_isometry_involution (v n : vec3 ℝ) (hn : n.length Real.sqrt = 1) :
    (reflect v n).length_squared = v.length_squared ∧ reflect (reflect v n) n = v :=
  ⟨reflect_length_squared v n ((length_eq_one_iff n).1 hn),
    reflect_reflect v n ((length_eq_one_iff n).1 hn)⟩

/-- C18 (witness): `v = (1, 2, 3)` and the unit normal `(0, 1, 0)`. -/
theorem reflect_isometry_involution_witness :
    (⟨0, 1, 0⟩ : vec3 ℝ).length Real.sqrt = 1
      ∧ (reflect (⟨1, 2, 3⟩ : vec3 ℝ) ⟨0, 1, 0⟩).length_squared
          = (⟨1, 2, 3⟩ : vec3 ℝ).length_squared
      ∧ reflect (reflect (⟨1, 2, 3⟩ : vec3 ℝ) ⟨0, 1, 0⟩) ⟨0, 1, 0⟩ = ⟨1, 2, 3⟩ :=
  ⟨length_unit_y, reflect_isometry_involution ⟨1, 2, 3⟩ ⟨0, 1, 0⟩ length_unit_y⟩

/-! ## C20: refraction at normal incidence -/

/-- C20: for every unit-length `n` and every ratio `eta`,
`refract(-n, n, eta) = -n`. -/
theorem refract_normal_incidence (n : vec3 ℝ) (eta : ℝ) (hn : n.length Real.sqrt = 1) :
    refract Real.sqrt (-n) n eta = -n := by
  have hn2 := (length_eq_one_iff n).1 hn
  have hneg : (-n).length_squared = 1 := by
    rw [← hn2]
    simp only [vec3.length_squared, vec3.neg_x, vec3.neg_y, vec3.neg_z]
    ring
  have hd : dot (-n) n = -1 := by
    rw [← hn2]
    simp only [dot, vec3.length_squared, vec3.neg_x, vec3.neg_y, vec3.neg_z]
    ring
  have hP : eta * (-n + (-dot (-n) n) * n) = (⟨0, 0, 0⟩ : vec3 ℝ) := by
    rw [hd]
    ext <;> simp
  rw [refract_of_unit Real.sqrt (-n) n eta hneg hn2, hP]
  ext <;> simp [vec3.length_squared]

/-- C20 (witness): the unit normal `(0, 1, 0)` and the ratio `3/2`. -/
theorem refract_normal_incidence_witness :
    (⟨0, 1, 0⟩ : vec3 ℝ).length Real.sqrt = 1
      ∧ refract Real.sqrt (-(⟨0, 1, 0⟩ : vec3 ℝ)) ⟨0, 1, 0⟩ (3 / 2) = -(⟨0, 1, 0⟩ : vec3 ℝ) :=
  ⟨length_unit_y, refract_normal_incidence ⟨0, 1, 0⟩ (3 / 2) length_unit_y⟩

/-! ## Lemmas on the counters and the range of `ray_color` -/

section Counters

variable {α μ σ : Type} [LinearOrderedField α]

/-- The one-pass function returns the result of `ray_color` and the counters
of `ray_color_counts`. -/
theorem ray_color_traced_eq (sqrt : α → α) (scatter : material α μ σ) (world : Hittable α μ)
    (n : ℕ) : ∀ (depth : ℤ) (r : Ray α) (s : σ), depth.toNat = n →
      ray_color_traced sqrt scatter r world depth s
        = (ray_color sqrt scatter r world depth s, ray_color_counts scatter r world depth s) := by
  induction n with
  | zero =>
    intro depth r s hn
    have h : depth ≤ 0 := by omega
    rw [ray_color_traced, ray_color, ray_color_counts, if_pos h, if_pos h, if_pos h]
  | succ n ih =>
    intro depth r s hn
    have h : ¬ depth ≤ 0 := by omega
    rw [ray_color_traced, ray_color, ray_color_counts, if_neg h, if_neg h, if_neg h]
    cases hhit : world.hit r 0.001 ⊤ with
    | none => rfl
    | some rec =>
      simp only []
      rcases hs : scatter rec.mat_ptr r rec s with ⟨_ | ⟨a, scattered⟩, s1⟩
      · rfl
      · simp only []
        rw [ih (depth - 1) scattered s1 (by omega)]

/-- The counters of `ray_color` are bounded by the depth. -/
theorem ray_color_counts_le (scatter : material α μ σ) (world : Hittable α μ) (n : ℕ) :
    ∀ (depth : ℤ) (r : Ray α) (s : σ), depth.toNat = n →
      (ray_color_counts scatter r world depth s).calls ≤ n + 1
        ∧ (ray_color_counts scatter r world depth s).hit_tests ≤ n
        ∧ (ray_color_counts scatter r world depth s).scatter_calls ≤ n := by
  induction n with
  | zero =>
    intro depth r s hn
    have h : depth ≤ 0 := by omega
    rw [ray_color_counts, if_pos h]
    exact ⟨le_refl _, le_refl _, le_refl _⟩
  | succ n ih =>
    intro depth r s hn
    have h : ¬ depth ≤ 0 := by omega
    rw [ray_color_counts, if_neg h]
    cases hhit : world.hit r 0.001 ⊤ with
    | none =>
      simp only []
      omega
    | some rec =>
      simp only []
      rcases hs : scatter rec.mat_ptr r rec s with ⟨_ | ⟨a, scattered⟩, s1⟩
      · simp only []
        omega
      · simp only []
        have := ih (depth - 1) scattered s1 (by omega)
        omega

end Counters

/-- The background colour of `ray_color` for a direction `v`: red in
`[0.5, 1]`, green in `[0.7, 1]`, blue `1`. -/
theorem sky_gradient_bounds (v : vec3 ℝ) :
    (0.5 ≤ (((1 - 0.5 * ((unit_vector Real.sqrt v).y + 1)) * (⟨1, 1, 1⟩ : color ℝ))
        + ((0.5 * ((unit_vector Real.sqrt v).y + 1)) * (⟨0.5, 0.7, 1.0⟩ : color ℝ))).x
      ∧ (((1 - 0.5 * ((unit_vector Real.sqrt v).y + 1)) * (⟨1, 1, 1⟩ : color ℝ))
        + ((0.5 * ((unit_vector Real.sqrt v).y + 1)) * (⟨0.5, 0.7, 1.0⟩ : color ℝ))).x ≤ 1)
    ∧ (0.7 ≤ (((1 - 0.5 * ((unit_vector Real.sqrt v).y + 1)) * (⟨1, 1, 1⟩ : color ℝ))
        + ((0.5 * ((unit_vector Real.sqrt v).y + 1)) * (⟨0.5, 0.7, 1.0⟩ : color ℝ))).y
      ∧ (((1 - 0.5 * ((unit_vector Real.sqrt v).y + 1)) * (⟨1, 1, 1⟩ : color ℝ))
        + ((0.5 * ((unit_vector Real.sqrt v).y + 1)) * (⟨0.5, 0.7, 1.0⟩ : color ℝ))).y ≤ 1)
    ∧ (((1 - 0.5 * ((unit_vector Real.sqrt v).y + 1)) * (⟨1, 1, 1⟩ : color ℝ))
        + ((0.5 * ((unit_vector Real.sqrt v).y + 1)) * (⟨0.5, 0.7, 1.0⟩ : color ℝ))).z = 1 := by
  have hy := abs_le.1 (unit_vector_y_abs_le_one v)
  simp only [vec3.add_x, vec3.add_y, vec3.add_z, vec3.smul_x, vec3.smul_y, vec3.smul_z]
  refine ⟨⟨?_, ?_⟩, ⟨?_, ?_⟩, ?_⟩ <;> norm_num <;> linarith [hy.1, hy.2]

/-! ## C15: the recursion of `ray_color` is bounded by the depth -/

/-- C15: `ray_color` is total (it is defined by well-founded recursion on
`depth`), and for every scene, material dispatch, ray, integer `depth` and
generator state the chain of nested `ray_color` calls has length at most
`max(depth, 0) + 1` and performs at most `max(depth, 0)` hit tests (and at most
as many `scatter` calls); the counters are those of the run that computes the
result of `ray_color`. -/
theorem ray_color_recursion_bounded {α μ σ : Type} [LinearOrderedField α] (sqrt : α → α)
    (scatter : material α μ σ) (r : Ray α) (world : Hittable α μ) (depth : ℤ) (s : σ) :
    ray_color_traced sqrt scatter r world depth s
        = (ray_color sqrt scatter r world depth s, ray_color_counts scatter r world depth s)
      ∧ ((ray_color_counts scatter r world depth s).calls : ℤ) ≤ max depth 0 + 1
      ∧ ((ray_color_counts scatter r world depth s).hit_tests : ℤ) ≤ max depth 0
      ∧ ((ray_color_counts scatter r world depth s).scatter_calls : ℤ) ≤ max depth 0 := by
  have h := ray_color_counts_le scatter world depth.toNat depth r s rfl
  have hmax : ((depth.toNat : ℕ) : ℤ) = max depth 0 := Int.toNat_eq_max depth
  refine ⟨ray_color_traced_eq sqrt scatter world depth.toNat depth r s rfl, ?_, ?_, ?_⟩
  · rw [← hmax]
    exact_mod_cast h.1
  · rw [← hmax]
    exact_mod_cast h.2.1
  · rw [← hmax]
    exact_mod_cast h.2.2

/-! ## C16: the scanlines of the two render tasks -/

/-- The scanline loop from `j` down to `image_height_min` visits exactly the
indices `image_height_min .. j`, each once. -/
theorem Render.RenderTask.scanline_indices.loop_spec (hmin : ℤ) (n : ℕ) :
    ∀ j : ℤ, (j - hmin + 1).toNat = n →
      (∀ k, k ∈ Render.RenderTask.scanline_indices.loop hmin j ↔ hmin ≤ k ∧ k ≤ j)
        ∧ (Render.RenderTask.scanline_indices.loop hmin j).Nodup := by
  induction n with
  | zero =>
    intro j hn
    have hj : ¬ j ≥ hmin := by omega
    rw [Render.RenderTask.scanline_indices.loop, if_neg hj]
    refine ⟨fun k => ?_, List.nodup_nil⟩
    simp only [List.not_mem_nil, false_iff]
    omega
  | succ n ih =>
    intro j hn
    have hj : j ≥ hmin := by omega
    obtain ⟨hmem, hnd⟩ := ih (j - 1) (by omega)
    rw [Render.RenderTask.scanline_indices.loop, if_pos hj]
    refine ⟨fun k => ?_, List.nodup_cons.2 ⟨?_, hnd⟩⟩
    · rw [List.mem_cons, hmem]
      omega
    · rw [hmem]
      omega

/-- The write trace of a render task is the concatenation of the scanline
writes over the scanline indices it visits. -/
theorem Render.RenderTask.loop_eq_flatMap (hmax hmin : ℤ) (n : ℕ) :
    ∀ j : ℤ, (j - hmin + 1).toNat = n →
      Render.RenderTask.loop hmax hmin j
        = (Render.RenderTask.scanline_indices.loop hmin j).flatMap
            (Render.RenderTask.scanline hmax) := by
  induction n with
  | zero =>
    intro j hn
    have hj : ¬ j ≥ hmin := by omega
    rw [Render.RenderTask.loop, Render.RenderTask.scanline_indices.loop, if_neg hj, if_neg hj]
    rfl
  | succ n ih =>
    intro j hn
    have hj : j ≥ hmin := by omega
    rw [Render.RenderTask.loop, Render.RenderTask.scanline_indices.loop, if_pos hj, if_pos hj,
      ih (j - 1) (by omega)]
    rfl

/-- C16: in `Render::Start`, with `image_height = 266` and
`image_height_mid = 133`, the task of thread `t1` renders exactly the scanlines
`133 .. 265` and the task of thread `t2` exactly the scanlines `0 .. 132`; the
two ranges are disjoint, their union is `0 .. image_height-1`, and no scanline
occurs twice, so every scanline `j` is rendered exactly once. -/
theorem Render_Start_scanlines_partition :
    Render.image_height = 266
      ∧ (∀ j, j ∈ Render.Start.scanline_indices.1 ↔ 133 ≤ j ∧ j ≤ 265)
      ∧ (∀ j, j ∈ Render.Start.scanline_indices.2 ↔ 0 ≤ j ∧ j ≤ 132)
      ∧ List.Disjoint Render.Start.scanline_indices.1 Render.Start.scanline_indices.2
      ∧ (∀ j, j ∈ Render.Start.scanline_indices.1 ++ Render.Start.scanline_indices.2
          ↔ 0 ≤ j ∧ j ≤ Render.image_height - 1)
      ∧ (Render.Start.scanline_indices.1 ++ Render.Start.scanline_indices.2).Nodup := by
  have hmid : Int.tdiv 266 2 = 133 := by decide
  have e1 : Render.Start.scanline_indices.1
      = Render.RenderTask.scanline_indices.loop 133 265 := by
    simp only [Render.Start.scanline_indices, Render.RenderTask.scanline_indices,
      Render.image_height_eq, hmid]
    rfl
  have e2 : Render.Start.scanline_indices.2
      = Render.RenderTask.scanline_indices.loop 0 132 := by
    simp only [Render.Start.scanline_indices, Render.RenderTask.scanline_indices,
      Render.image_height_eq, hmid]
    rfl
  obtain ⟨m1, n1⟩ := Render.RenderTask.scanline_indices.loop_spec 133 _ 265 rfl
  obtain ⟨m2, n2⟩ := Render.RenderTask.scanline_indices.loop_spec 0 _ 132 rfl
  rw [e1, e2, Render.image_height_eq]
  have hdis : List.Disjoint (Render.RenderTask.scanline_indices.loop 133 265)
      (Render.RenderTask.scanline_indices.loop 0 132) := by
    intro k h1 h2
    have a := (m1 k).1 h1
    have b := (m2 k).1 h2
    omega
  refine ⟨rfl, m1, m2, hdis, fun j => ?_, List.Nodup.append n1 n2 hdis⟩
  rw [List.mem_append, m1, m2]
  omega

/-! ## Lemmas on `unit_vector_checked` and `ray_color_checked` -/

/-- Over the reals a vector has length zero exactly when it is the zero
vector. -/
theorem length_eq_zero_iff (v : vec3 ℝ) : v.length Real.sqrt = 0 ↔ v = ⟨0, 0, 0⟩ := by
  simp only [vec3.length, vec3.length_squared]
  rw [Real.sqrt_eq_zero']
  constructor
  · intro h
    have hx : v.x = 0 := by
      have : v.x * v.x ≤ 0 := by nlinarith [mul_self_nonneg v.y, mul_self_nonneg v.z]
      exact mul_self_eq_zero.1 (le_antisymm this (mul_self_nonneg v.x))
    have hy : v.y = 0 := by
      have : v.y * v.y ≤ 0 := by nlinarith [mul_self_nonneg v.x, mul_self_nonneg v.z]
      exact mul_self_eq_zero.1 (le_antisymm this (mul_self_nonneg v.y))
    have hz : v.z = 0 := by
      have : v.z * v.z ≤ 0 := by nlinarith [mul_self_nonneg v.x, mul_self_nonneg v.y]
      exact mul_self_eq_zero.1 (le_antisymm this (mul_self_nonneg v.z))
    ext
    · exact hx
    · exact hy
    · exact hz
  · intro h
    rw [h]
    norm_num

section Checked

variable {α μ σ : Type} [LinearOrderedField α]

/-- Normalising a vector of non-zero length succeeds with the quotient. -/
theorem unit_vector_checked_of_ne (sqrt : α → α) (v : vec3 α) (h : v.length sqrt ≠ 0) :
    unit_vector_checked sqrt v = some (unit_vector sqrt v) := by
  rw [unit_vector_checked, if_neg h]
  rfl

/-- Normalising a vector of length zero fails. -/
theorem unit_vector_checked_of_eq (sqrt : α → α) (v : vec3 α) (h : v.length sqrt = 0) :
    unit_vector_checked sqrt v = none := by
  rw [unit_vector_checked, if_pos h]

/-- Wherever `ray_color_checked` returns a value, it is the value of
`ray_color`. -/
theorem ray_color_checked_eq_some (sqrt : α → α) (scatter : material α μ σ)
    (world : Hittable α μ) (n : ℕ) :
    ∀ (depth : ℤ) (r : Ray α) (s : σ) (c : color α × σ), depth.toNat = n →
      ray_color_checked sqrt scatter r world depth s = some c →
      ray_color sqrt scatter r world depth s = c := by
  induction n with
  | zero =>
    intro depth r s c hn hc
    have h : depth ≤ 0 := by omega
    rw [ray_color_checked, if_pos h] at hc
    rw [ray_color, if_pos h]
    exact Option.some.inj hc
  | succ n ih =>
    intro depth r s c hn hc
    have h : ¬ depth ≤ 0 := by omega
    rw [ray_color_checked, if_neg h] at hc
    rw [ray_color, if_neg h]
    cases hhit : world.hit r 0.001 ⊤ with
    | none =>
      rw [hhit] at hc
      simp only [] at hc ⊢
      by_cases hl : r.direction.length sqrt = 0
      · rw [unit_vector_checked_of_eq sqrt _ hl] at hc
        exact absurd hc (by simp)
      · rw [unit_vector_checked_of_ne sqrt _ hl] at hc
        exact Option.some.inj hc
    | some rec =>
      rw [hhit] at hc
      simp only [] at hc ⊢
      rcases hs : scatter rec.mat_ptr r rec s with ⟨_ | ⟨a, scattered⟩, s1⟩
      · rw [hs] at hc
        exact Option.some.inj hc
      · rw [hs] at hc
        simp only [] at hc ⊢
        cases hrec : ray_color_checked sqrt scatter scattered world (depth - 1) s1 with
        | none =>
          rw [hrec] at hc
          exact absurd hc (by simp)
        | some c1 =>
          rw [hrec] at hc
          rw [ih (depth - 1) scattered s1 c1 (by omega) hrec]
          exact Option.some.inj hc

/-- When the ray and every ray scattered from a hit of the scene have
non-zero length, `ray_color_checked` returns the value of `ray_color`. -/
theorem ray_color_checked_of_ne (sqrt : α → α) (scatter : material α μ σ)
    (world : Hittable α μ)
    (hscat : ∀ (r1 : Ray α) (rec : hit_record α μ) (s0 : σ) (a : color α)
      (scattered : Ray α) (s1 : σ), world.hit r1 0.001 ⊤ = some rec →
        scatter rec.mat_ptr r1 rec s0 = (some (a, scattered), s1) →
        scattered.direction.length sqrt ≠ 0)
    (n : ℕ) : ∀ (depth : ℤ) (r : Ray α) (s : σ), depth.toNat = n →
      r.direction.length sqrt ≠ 0 →
      ray_color_checked sqrt scatter r world depth s
        = some (ray_color sqrt scatter r world depth s) := by
  induction n with
  | zero =>
    intro depth r s hn _
    have h : depth ≤ 0 := by omega
    rw [ray_color_checked, ray_color, if_pos h, if_pos h]
  | succ n ih =>
    intro depth r s hn hr
    have h : ¬ depth ≤ 0 := by omega
    rw [ray_color_checked, ray_color, if_neg h, if_neg h]
    cases hhit : world.hit r 0.001 ⊤ with
    | none =>
      simp only []
      rw [unit_vector_checked_of_ne sqrt _ hr]
    | some rec =>
      simp only []
      rcases hs : scatter rec.mat_ptr r rec s with ⟨_ | ⟨a, scattered⟩, s1⟩
      · rfl
      · simp only []
        rw [ih (depth - 1) scattered s1 (by omega) (hscat r rec s a scattered s1 hhit hs)]

end Checked

/-- With attenuations in `[0, 1]` at the hits of the scene, every component of
the value of `ray_color` lies in `[0, 1]`. -/
theorem ray_color_mem_unit_cube {μ σ : Type} (scatter : material ℝ μ σ) (world : Hittable ℝ μ)
    (hatt : ∀ (r1 : Ray ℝ) (rec : hit_record ℝ μ) (s0 : σ) (a : color ℝ)
      (scattered : Ray ℝ) (s1 : σ), world.hit r1 0.001 ⊤ = some rec →
        scatter rec.mat_ptr r1 rec s0 = (some (a, scattered), s1) →
        (0 ≤ a.x ∧ a.x ≤ 1) ∧ (0 ≤ a.y ∧ a.y ≤ 1) ∧ (0 ≤ a.z ∧ a.z ≤ 1))
    (n : ℕ) : ∀ (depth : ℤ) (r : Ray ℝ) (s : σ), depth.toNat = n →
      (0 ≤ (ray_color Real.sqrt scatter r world depth s).1.x
          ∧ (ray_color Real.sqrt scatter r world depth s).1.x ≤ 1)
        ∧ (0 ≤ (ray_color Real.sqrt scatter r world depth s).1.y
          ∧ (ray_color Real.sqrt scatter r world depth s).1.y ≤ 1)
        ∧ (0 ≤ (ray_color Real.sqrt scatter r world depth s).1.z
          ∧ (ray_color Real.sqrt scatter r world depth s).1.z ≤ 1) := by
  induction n with
  | zero =>
    intro depth r s hn
    rw [ray_color_eq_of_nonpos Real.sqrt scatter r world depth s (by omega)]
    norm_num
  | succ n ih =>
    intro depth r s hn
    have hd : 1 ≤ depth := by omega
    cases hhit : world.hit r 0.001 ⊤ with
    | none =>
      rw [ray_color_eq_of_miss Real.sqrt scatter r world depth s hd hhit]
      have h := sky_gradient_bounds r.direction
      refine ⟨⟨by linarith [h.1.1], h.1.2⟩, ⟨by linarith [h.2.1.1], h.2.1.2⟩, ?_⟩
      rw [h.2.2]
      norm_num
    | some rec =>
      rcases hs : scatter rec.mat_ptr r rec s with ⟨_ | ⟨a, scattered⟩, s1⟩
      · rw [ray_color_eq_of_absorb Real.sqrt scatter r world depth s rec s1 hd hhit hs]
        norm_num
      · rw [ray_color_eq_of_scatter Real.sqrt scatter r world depth s rec a scattered s1 hd
          hhit hs]
        have ha := hatt r rec s a scattered s1 hhit hs
        have hc := ih (depth - 1) scattered s1 (by omega)
        simp only [vec3.mul_x, vec3.mul_y, vec3.mul_z]
        refine ⟨⟨mul_nonneg ha.1.1 hc.1.1, ?_⟩, ⟨mul_nonneg ha.2.1.1 hc.2.1.1, ?_⟩,
          ⟨mul_nonneg ha.2.2.1 hc.2.2.1, ?_⟩⟩
        · exact mul_le_one₀ ha.1.2 hc.1.1 hc.1.2
        · exact mul_le_one₀ ha.2.1.2 hc.2.1.1 hc.2.1.2
        · exact mul_le_one₀ ha.2.2.2 hc.2.2.1 hc.2.2.2

/-- In the ground fixture every hit record is the top point of the ground
sphere with the normal `(0, 1, 0)`. -/
theorem ground_world_hit_eq (r1 : Ray ℝ) (rec : hit_record ℝ Unit)
    (h : (ground_world : Hittable ℝ Unit).hit r1 0.001 ⊤ = some rec) :
    rec = ⟨⟨0, -0.5, -1⟩, ⟨0, 1, 0⟩, (), 0.5, true⟩ := by
  simp only [ground_world] at h
  by_cases hy : r1.dir.y < 0
  · rw [if_pos hy] at h
    exact (Option.some.inj h).symm
  · rw [if_neg hy] at h
    exact absurd h (by simp)

/-- The direction `(0, -1, 0)` is not the zero vector. -/
theorem down_ne_zero : (⟨⟨0, 0, -1⟩, ⟨0, -1, 0⟩⟩ : Ray ℝ).direction ≠ ⟨0, 0, 0⟩ := by
  intro h
  have hy := congrArg vec3.y h
  simp [Ray.direction] at hy

/-! ## C19: the range of `ray_color` -/

/-- C19 (counterexample): in the ground fixture with a material of attenuation
`(1, 1, 1)` that scatters into a ray of zero direction, the ray from
`(0, 0, -1)` straight down has a non-zero direction and every attenuation lies
in `[0, 1]`, but at depth `2` the scattered ray misses, `ray_color` normalises
its zero direction, and no colour is returned. -/
theorem ray_color_zero_direction_counterexample :
    (⟨⟨0, 0, -1⟩, ⟨0, -1, 0⟩⟩ : Ray ℝ).direction ≠ ⟨0, 0, 0⟩
      ∧ (∀ (m : Unit) (r1 : Ray ℝ) (rec : hit_record ℝ Unit) (s0 : ℕ) (a : color ℝ)
          (scattered : Ray ℝ) (s1 : ℕ),
          (zero_direction_scatter : material ℝ Unit ℕ) m r1 rec s0 = (some (a, scattered), s1) →
            (0 ≤ a.x ∧ a.x ≤ 1) ∧ (0 ≤ a.y ∧ a.y ≤ 1) ∧ (0 ≤ a.z ∧ a.z ≤ 1))
      ∧ unit_vector_checked Real.sqrt (⟨0, 0, 0⟩ : vec3 ℝ) = none
      ∧ ray_color_checked Real.sqrt zero_direction_scatter (⟨⟨0, 0, -1⟩, ⟨0, -1, 0⟩⟩ : Ray ℝ)
          ground_world 2 7 = none := by
  have hzero : unit_vector_checked Real.sqrt (⟨0, 0, 0⟩ : vec3 ℝ) = none :=
    unit_vector_checked_of_eq Real.sqrt _ ((length_eq_zero_iff _).2 rfl)
  have hmiss : (ground_world : Hittable ℝ Unit).hit ⟨⟨0, -0.5, -1⟩, ⟨0, 0, 0⟩⟩ 0.001 ⊤
      = none := by
    simp [ground_world]
  have hinner : ray_color_checked Real.sqrt zero_direction_scatter
      (⟨⟨0, -0.5, -1⟩, ⟨0, 0, 0⟩⟩ : Ray ℝ) ground_world (2 - 1) 7 = none := by
    rw [ray_color_checked, if_neg (by decide), hmiss]
    simp only [Ray.direction]
    rw [hzero]
  refine ⟨down_ne_zero, ?_, hzero, ?_⟩
  · intro m r1 rec s0 a scattered s1 h
    simp only [zero_direction_scatter, Prod.mk.injEq, Option.some.injEq] at h
    rw [← h.1.1]
    norm_num
  · rw [ray_color_checked, if_neg (by decide), ground_world_hit_down]
    simp only [zero_direction_scatter]
    rw [hinner]

/-- C19 (amended): for every scene, ray with non-zero direction and depth, if
every successful `scatter` at a hit of the scene returns an attenuation with
its three components in `[0, 1]` and a scattered ray with non-zero direction,
then `ray_color` returns a colour (no direction of length zero is normalised)
and every component of it lies in `[0, 1]`; and the background colour of a
missing ray has red in `[0.5, 1]`, green in `[0.7, 1]` and blue `1`. -/
theorem ray_color_checked_range {μ σ : Type} (scatter : material ℝ μ σ)
    (world : Hittable ℝ μ) (r : Ray ℝ) (depth : ℤ) (s : σ)
    (hr : r.direction ≠ ⟨0, 0, 0⟩)
    (hscat : ∀ (r1 : Ray ℝ) (rec : hit_record ℝ μ) (s0 : σ) (a : color ℝ)
      (scattered : Ray ℝ) (s1 : σ), world.hit r1 0.001 ⊤ = some rec →
        scatter rec.mat_ptr r1 rec s0 = (some (a, scattered), s1) →
        scattered.direction ≠ ⟨0, 0, 0⟩
          ∧ (0 ≤ a.x ∧ a.x ≤ 1) ∧ (0 ≤ a.y ∧ a.y ≤ 1) ∧ (0 ≤ a.z ∧ a.z ≤ 1)) :
    ∃ (c : color ℝ) (s1 : σ),
      ray_color_checked Real.sqrt scatter r world depth s = some (c, s1)
        ∧ ray_color Real.sqrt scatter r world depth s = (c, s1)
        ∧ ((0 ≤ c.x ∧ c.x ≤ 1) ∧ (0 ≤ c.y ∧ c.y ≤ 1) ∧ (0 ≤ c.z ∧ c.z ≤ 1))
        ∧ (1 ≤ depth → world.hit r 0.001 ⊤ = none →
            (0.5 ≤ c.x ∧ c.x ≤ 1) ∧ (0.7 ≤ c.y ∧ c.y ≤ 1) ∧ c.z = 1) := by
  have hne : ∀ (r1 : Ray ℝ) (rec : hit_record ℝ μ) (s0 : σ) (a : color ℝ)
      (scattered : Ray ℝ) (s1 : σ), world.hit r1 0.001 ⊤ = some rec →
      scatter rec.mat_ptr r1 rec s0 = (some (a, scattered), s1) →
      scattered.direction.length Real.sqrt ≠ 0 := by
    intro r1 rec s0 a scattered s1 hhit hs h0
    exact (hscat r1 rec s0 a scattered s1 hhit hs).1 ((length_eq_zero_iff _).1 h0)
  have hr0 : r.direction.length Real.sqrt ≠ 0 := fun h0 => hr ((length_eq_zero_iff _).1 h0)
  have hdef := ray_color_checked_of_ne Real.sqrt scatter world hne depth.toNat depth r s rfl hr0
  have hcube := ray_color_mem_unit_cube scatter world
    (fun r1 rec s0 a scattered s1 hhit hs => (hscat r1 rec s0 a scattered s1 hhit hs).2)
    depth.toNat depth r s rfl
  refine ⟨(ray_color Real.sqrt scatter r world depth s).1,
    (ray_color Real.sqrt scatter r world depth s).2, hdef, rfl, hcube, ?_⟩
  intro hd hmiss
  rw [ray_color_eq_of_miss Real.sqrt scatter r world depth s hd hmiss]
  exact sky_gradient_bounds r.direction

/-- C19 (witness): the ground fixture (attenuation `(0.8, 0.8, 0.0)`, scattered
direction `(0, 1, 0)`) at depth `50` for the ray from `(0, 0, -1)` straight
down: a colour is returned, with its components in `[0, 1]`. -/
theorem ray_color_checked_range_witness :
    (⟨⟨0, 0, -1⟩, ⟨0, -1, 0⟩⟩ : Ray ℝ).direction ≠ ⟨0, 0, 0⟩
      ∧ ∃ (c : color ℝ) (s1 : ℕ),
        ray_color_checked Real.sqrt ground_scatter (⟨⟨0, 0, -1⟩, ⟨0, -1, 0⟩⟩ : Ray ℝ)
            ground_world 50 7 = some (c, s1)
          ∧ ((0 ≤ c.x ∧ c.x ≤ 1) ∧ (0 ≤ c.y ∧ c.y ≤ 1) ∧ (0 ≤ c.z ∧ c.z ≤ 1)) := by
  have hscat : ∀ (r1 : Ray ℝ) (rec : hit_record ℝ Unit) (s0 : ℕ) (a : color ℝ)
      (scattered : Ray ℝ) (s1 : ℕ),
      (ground_world : Hittable ℝ Unit).hit r1 0.001 ⊤ = some rec →
      (ground_scatter : material ℝ Unit ℕ) rec.mat_ptr r1 rec s0 = (some (a, scattered), s1) →
      scattered.direction ≠ ⟨0, 0, 0⟩
        ∧ (0 ≤ a.x ∧ a.x ≤ 1) ∧ (0 ≤ a.y ∧ a.y ≤ 1) ∧ (0 ≤ a.z ∧ a.z ≤ 1) := by
    intro r1 rec s0 a scattered s1 hhit hs
    rw [ground_world_hit_eq r1 rec hhit] at hs
    simp only [ground_scatter, Prod.mk.injEq, Option.some.injEq] at hs
    rw [← hs.1.1, ← hs.1.2]
    refine ⟨?_, by norm_num⟩
    intro h
    have hy := congrArg vec3.y h
    simp [Ray.direction] at hy
  obtain ⟨c, s1, h1, _, h3, _⟩ := ray_color_checked_range ground_scatter ground_world
    ⟨⟨0, 0, -1⟩, ⟨0, -1, 0⟩⟩ 50 7 down_ne_zero hscat
  exact ⟨down_ne_zero, c, s1, h1, h3⟩

end RayTracing
